import Mathlib

/-!
Verification of the `pin-extractor` repository (`src/app.py`) against its
natural-language specification.

The development shallowly embeds the two core functions of `src/app.py`:

* `decode_viewstate` (called `extract_and_decode` in the spec): locate the
  `__VIEWSTATE` attribute value with the regex
  `name="__VIEWSTATE"[^>]*value="([^"]*)"` (IGNORECASE), base64-decode it
  (CPython non-strict `binascii.a2b_base64`), attempt zlib decompression with
  a silent fallback to the raw bytes, and decode the resulting bytes as text
  (strict UTF-8, falling back to Latin-1).

* `extract_pin_value` (called `find_pin` in the spec): search the decoded text
  with the regex `PIN(.*?)(?<!\d)(\d{6})` (IGNORECASE) and return the second
  capture group.

Strings are modelled as `List Char` (Lean `Char` = Unicode scalar value, the
same value space as a Python `str` code point), bytes as `Nat` values that are
kept below 256 by construction.
-/

/-- Model of CPython `sre` case folding as used by `re.IGNORECASE` when it
matches the ASCII literals appearing in this program's patterns
(`PIN`, `name="__VIEWSTATE"`, `value="`): ASCII uppercase letters fold to
lowercase, and the documented non-ASCII equivalences that fold onto those
ASCII letters (dotted/dotless capital I, long s, Kelvin sign) are included.
Characters whose folding cannot reach an ASCII letter are left unchanged. -/
def reLower (c : Char) : Char :=
  if 65 ≤ c.toNat ∧ c.toNat ≤ 90 then Char.ofNat (c.toNat + 32)
  else if c.toNat = 0x130 ∨ c.toNat = 0x131 then 'i'
  else if c.toNat = 0x17F then 's'
  else if c.toNat = 0x212A then 'k'
  else c

/-- `ciPrefix t pat`: the pattern `pat` (given in lowercase) matches
case-insensitively at the head of the text `t`, one literal character at a
time, exactly as the regex engine matches a literal under `re.IGNORECASE`. -/
def ciPrefix : List Char → List Char → Bool
  | _, [] => true
  | [], _ :: _ => false
  | c :: cs, p :: ps => reLower c = p && ciPrefix cs ps

/-- The pattern `pat` matches case-insensitively at position `i` of `s`. -/
def ciMatchAt (s : List Char) (i : Nat) (pat : List Char) : Bool :=
  ciPrefix (s.drop i) pat

/-- The ranges of the Unicode general category Nd (decimal digit), the
character class matched by `\d` in a CPython `str` regex (no `re.ASCII`).
Generated from `unicodedata` of CPython 3.11 (Unicode 14/15). -/
def ndRanges : List (Nat × Nat) :=
  [(48, 57), (1632, 1641), (1776, 1785), (1984, 1993), (2406, 2415),
   (2534, 2543), (2662, 2671), (2790, 2799), (2918, 2927), (3046, 3055),
   (3174, 3183), (3302, 3311), (3430, 3439), (3558, 3567), (3664, 3673),
   (3792, 3801), (3872, 3881), (4160, 4169), (4240, 4249), (6112, 6121),
   (6160, 6169), (6470, 6479), (6608, 6617), (6784, 6793), (6800, 6809),
   (6992, 7001), (7088, 7097), (7232, 7241), (7248, 7257), (42528, 42537),
   (43216, 43225), (43264, 43273), (43472, 43481), (43504, 43513),
   (43600, 43609), (44016, 44025), (65296, 65305), (66720, 66729),
   (68912, 68921), (69734, 69743), (69872, 69881), (69942, 69951),
   (70096, 70105), (70384, 70393), (70736, 70745), (70864, 70873),
   (71248, 71257), (71360, 71369), (71472, 71481), (71904, 71913),
   (72016, 72025), (72784, 72793), (73040, 73049), (73120, 73129),
   (92768, 92777), (92864, 92873), (93008, 93017), (120782, 120831),
   (123200, 123209), (123632, 123641), (125264, 125273), (130032, 130041)]

/-- Model of the regex class `\d`: a Unicode decimal digit (category Nd). -/
def reDigit (c : Char) : Bool :=
  ndRanges.any (fun p => decide (p.1 ≤ c.toNat ∧ c.toNat ≤ p.2))

/-- The head of `t` is a run of (at least) six `\d` digits; if so, return
those six characters (the `(\d{6})` capture group). -/
def sixDigits (t : List Char) : Option (List Char) :=
  if 6 ≤ t.length ∧ (t.take 6).all reDigit = true then some (t.take 6)
  else none

/-- The lazy tail `(.*?)(?<!\d)(\d{6})` of the PIN regex, started just after
a case-insensitive occurrence of `PIN`.  `prev` is the character immediately
before the current position (initially the `N`).  The lazy `.*?` tries the
shortest gap first: at each position, first test the lookbehind `(?<!\d)`
together with `(\d{6})`; on failure extend the gap by one character, which
must exist and must not be a newline (`.` without `re.DOTALL`). -/
def pinGapScan (prev : Char) (t : List Char) : Option (List Char) :=
  if reDigit prev = false ∧ (sixDigits t).isSome = true then sixDigits t
  else
    match t with
    | [] => none
    | c :: cs => if c = '\n' then none else pinGapScan c cs

/-- `re.search` of `PIN(.*?)(?<!\d)(\d{6})` with `re.IGNORECASE`: try every
start position from left to right; at each position the literal `PIN` must
match case-insensitively, and then the lazy tail must succeed. -/
def pinSearch : List Char → Option (List Char)
  | [] => none
  | [_] => none
  | [_, _] => none
  | a :: b :: c :: rest =>
    if ciPrefix (a :: b :: c :: rest) ['p', 'i', 'n'] then
      match pinGapScan c rest with
      | some r => some r
      | none => pinSearch (b :: c :: rest)
    else pinSearch (b :: c :: rest)

/-- Model of `extract_pin_value` from `src/app.py` (`find_pin` in the spec):
an empty input short-circuits to `None` (`if not decoded_string`), otherwise
the regex search result (its second capture group) is returned. -/
def find_pin (s : List Char) : Option (List Char) :=
  if s = [] then none else pinSearch s

example : find_pin ("...PIN: 123456...".toList) = some ("123456".toList) := by decide
example : find_pin ("no pin here".toList) = none := by decide
example : find_pin ("...PIN1234567...".toList) = some ("123456".toList) := by decide
example : find_pin ("pin abc 9123456".toList) = some ("912345".toList) := by decide
example : find_pin ("PIN 9123456 x 654321".toList) = some ("912345".toList) := by decide
example : find_pin ("PIN\n123456".toList) = none := by decide
example : find_pin ("".toList) = none := by decide

/-! ### Base64 (CPython `base64.b64decode` / `base64.b64encode`) -/

/-- The base64 alphabet value of a character, `none` for characters outside
the alphabet (which non-strict `binascii.a2b_base64` silently discards). -/
def b64val (c : Char) : Option Nat :=
  if 65 ≤ c.toNat ∧ c.toNat ≤ 90 then some (c.toNat - 65)
  else if 97 ≤ c.toNat ∧ c.toNat ≤ 122 then some (c.toNat - 97 + 26)
  else if 48 ≤ c.toNat ∧ c.toNat ≤ 57 then some (c.toNat - 48 + 52)
  else if c = '+' then some 62
  else if c = '/' then some 63
  else none

/-- The base64 alphabet character for a 6-bit value. -/
def b64chr (k : Nat) : Char :=
  if k ≤ 25 then Char.ofNat (65 + k)
  else if k ≤ 51 then Char.ofNat (97 + (k - 26))
  else if k ≤ 61 then Char.ofNat (48 + (k - 52))
  else if k = 62 then '+'
  else '/'

/-- The state machine of CPython `binascii.a2b_base64` in non-strict mode
(CPython ≥ 3.10, `Modules/binascii.c`): characters outside the alphabet are
discarded; `=` at quad position ≥ 2 counts as padding and terminates the
stream (ignoring the rest) once `quadPos + pads ≥ 4`, while `=` at quad
position 0 or 1 is ignored; a data character resets the pad count; at end of
input the quad position must be 0, otherwise the call raises
`binascii.Error` (modelled as `none`). -/
def a2b (quadPos leftchar pads : Nat) : List Char → Option (List Nat)
  | [] => if quadPos = 0 then some [] else none
  | c :: cs =>
    if c = '=' then
      if 2 ≤ quadPos ∧ 4 ≤ quadPos + (pads + 1) then some []
      else if 2 ≤ quadPos then a2b quadPos leftchar (pads + 1) cs
      else a2b quadPos leftchar pads cs
    else
      match b64val c with
      | none => a2b quadPos leftchar pads cs
      | some v =>
        match quadPos with
        | 0 => a2b 1 v 0 cs
        | 1 => (a2b 2 (v % 16) 0 cs).map (fun r => (leftchar * 4 + v / 16) :: r)
        | 2 => (a2b 3 (v % 4) 0 cs).map (fun r => (leftchar * 16 + v / 4) :: r)
        | _ => (a2b 0 0 0 cs).map (fun r => (leftchar * 64 + v) :: r)

/-- Model of `base64.b64decode(s)` applied to a `str`: the string is first
encoded as ASCII (raising, hence `none`, if any character is ≥ U+0080), then
fed to `binascii.a2b_base64`. -/
def b64decodeStr (s : List Char) : Option (List Nat) :=
  if s.all (fun c => decide (c.toNat < 128)) = true then a2b 0 0 0 s else none

/-- Model of `base64.b64encode`: standard encoding with `=` padding. -/
def b64encode : List Nat → List Char
  | [] => []
  | [b1] => [b64chr (b1 / 4), b64chr (b1 % 4 * 16), '=', '=']
  | [b1, b2] => [b64chr (b1 / 4), b64chr (b1 % 4 * 16 + b2 / 16),
                 b64chr (b2 % 16 * 4), '=']
  | b1 :: b2 :: b3 :: rest =>
    b64chr (b1 / 4) :: b64chr (b1 % 4 * 16 + b2 / 16) ::
    b64chr (b2 % 16 * 4 + b3 / 64) :: b64chr (b3 % 64) :: b64encode rest

example : b64decodeStr ("QUJD".toList) = some [65, 66, 67] := by decide
example : b64decodeStr ("Q Q==".toList) = some [65] := by decide
example : b64decodeStr ("QUJD!".toList) = some [65, 66, 67] := by decide
example : b64decodeStr ("QQ=".toList) = none := by decide
example : b64decodeStr ("QQ==garbage".toList) = some [65] := by decide
example : b64decodeStr ("QQQQQ".toList) = none := by decide
example : b64decodeStr ("QQ=Q".toList) = none := by decide
example : b64decodeStr ("====".toList) = some [] := by decide
example : b64decodeStr ("QUJ=".toList) = some [65, 66] := by decide
example : b64decodeStr ("AB===".toList) = some [0] := by decide
example : b64decodeStr ("".toList) = some [] := by decide
example : b64decodeStr ['Q', 'U', 'J', Char.ofNat 233] = none := by decide
example : b64encode [65, 66, 67] = "QUJD".toList := by decide
example : b64encode [65] = "QQ==".toList := by decide
example : b64encode [65, 66] = "QUI=".toList := by decide

/-! ### zlib (stored-deflate-block subset) -/

/-- One step of the Adler-32 checksum. -/
def adlerStep (st : Nat × Nat) (b : Nat) : Nat × Nat :=
  ((st.1 + b) % 65521, (st.2 + (st.1 + b) % 65521) % 65521)

/-- The Adler-32 checksum of a byte sequence, as appended to a zlib stream. -/
def adler32 (bs : List Nat) : Nat :=
  let st := bs.foldl adlerStep (1, 0)
  st.2 * 65536 + st.1

/-- The four big-endian bytes of a 32-bit checksum value. -/
def adlerBytes (d : Nat) : List Nat :=
  [d / 16777216 % 256, d / 65536 % 256, d / 256 % 256, d % 256]

/-- Modelled from the spec: the "zlib-compatible raw-deflate-with-header"
compression scheme (the `zlib` C library is not part of this repository).
The compressor emits one stored (uncompressed, `BTYPE=00`) deflate block per
byte followed by a final empty stored block — a valid deflate stream that any
zlib inflater accepts.  A stored block is: a header byte whose bit 0 is
`BFINAL` and bits 1-2 are `BTYPE=00`, then `LEN` and `NLEN = 0xFFFF - LEN`
in little-endian order, then the `LEN` raw bytes. -/
def storedBlocks : List Nat → List Nat
  | [] => [1, 0, 0, 255, 255]
  | b :: rest => 0 :: 1 :: 0 :: 254 :: 255 :: b :: storedBlocks rest

/-- Modelled from the spec: `zlib`-style compression of a byte string — the
two-byte zlib header `0x78 0x01`, the deflate blocks, and the Adler-32
checksum of the payload. -/
def zlibCompress (bs : List Nat) : List Nat :=
  120 :: 1 :: (storedBlocks bs ++ adlerBytes (adler32 bs))

/-- Parse a sequence of stored deflate blocks, returning the decompressed
bytes and the remaining input after the final block.  `fuel` bounds the
number of blocks (each block consumes at least five input bytes). -/
def inflateStored (fuel : Nat) (input : List Nat) : Option (List Nat × List Nat) :=
  match fuel with
  | 0 => none
  | fuel + 1 =>
    match input with
    | h :: l0 :: l1 :: n0 :: n1 :: rest =>
      if h / 2 % 4 = 0 then
        if n0 + 256 * n1 = 65535 - (l0 + 256 * l1) ∧ l0 + 256 * l1 ≤ rest.length then
          if h % 2 = 1 then
            some (rest.take (l0 + 256 * l1), rest.drop (l0 + 256 * l1))
          else
            match inflateStored fuel (rest.drop (l0 + 256 * l1)) with
            | some (d, r) => some (rest.take (l0 + 256 * l1) ++ d, r)
            | none => none
        else none
      else none
    | _ => none

/-- Modelled from the spec: `zlib.decompress` restricted to streams made of
stored deflate blocks (dynamic/fixed Huffman blocks are outside the model and
are treated as failing, like every other malformed input).  Checks the zlib
header (method 8, window ≤ 32K, header checksum divisible by 31, no preset
dictionary) and the trailing Adler-32 checksum; input after the end of the
stream is ignored, and any failure models `zlib.error`. -/
def zlibDecompress (input : List Nat) : Option (List Nat) :=
  match input with
  | cmf :: flg :: rest =>
    if cmf % 16 = 8 ∧ cmf / 16 ≤ 7 ∧ (cmf * 256 + flg) % 31 = 0 ∧ flg / 32 % 2 = 0 then
      match inflateStored (rest.length + 1) rest with
      | some (data, trailer) =>
        if 4 ≤ trailer.length ∧
            trailer.getD 0 0 * 16777216 + trailer.getD 1 0 * 65536 +
              trailer.getD 2 0 * 256 + trailer.getD 3 0 = adler32 data then
          some data
        else none
      | none => none
    else none
  | _ => none

example : zlibDecompress (zlibCompress [104, 105]) = some [104, 105] := by decide
example : zlibDecompress (zlibCompress []) = some [] := by decide
example : zlibDecompress [] = none := by decide
example : zlibDecompress [65, 66, 67] = none := by decide
example : zlibDecompress [65] = none := by decide

/-! ### Text codecs (`bytes.decode("utf-8")`, `bytes.decode("latin-1")`) -/

/-- A UTF-8 continuation byte. -/
def isCont (b : Nat) : Bool :=
  decide (128 ≤ b ∧ b ≤ 191)

/-- The UTF-8 encoding of one Unicode scalar value. -/
def utf8EncodeChar (c : Char) : List Nat :=
  if c.toNat < 128 then [c.toNat]
  else if c.toNat < 2048 then [192 + c.toNat / 64, 128 + c.toNat % 64]
  else if c.toNat < 65536 then
    [224 + c.toNat / 4096, 128 + c.toNat / 64 % 64, 128 + c.toNat % 64]
  else
    [240 + c.toNat / 262144, 128 + c.toNat / 4096 % 64, 128 + c.toNat / 64 % 64,
      128 + c.toNat % 64]

/-- The UTF-8 encoding of a text. -/
def utf8Encode : List Char → List Nat
  | [] => []
  | c :: cs => utf8EncodeChar c ++ utf8Encode cs

/-- Decode the continuation byte of a 2-byte UTF-8 sequence led by `b`. -/
def utf8Cont2 (b : Nat) : List Nat → Option (Nat × List Nat)
  | b2 :: r2 =>
    if isCont b2 = true then some ((b - 192) * 64 + (b2 - 128), r2) else none
  | [] => none

/-- Decode the continuation bytes of a 3-byte UTF-8 sequence led by `b`: the
first continuation byte is range-restricted after `0xE0` (no overlong forms)
and after `0xED` (no surrogates). -/
def utf8Cont3 (b : Nat) : List Nat → Option (Nat × List Nat)
  | b2 :: b3 :: r3 =>
    if (if b = 224 then decide (160 ≤ b2 ∧ b2 ≤ 191)
        else if b = 237 then decide (128 ≤ b2 ∧ b2 ≤ 159)
        else isCont b2) = true ∧ isCont b3 = true then
      some ((b - 224) * 4096 + (b2 - 128) * 64 + (b3 - 128), r3)
    else none
  | _ => none

/-- Decode the continuation bytes of a 4-byte UTF-8 sequence led by `b`: the
first continuation byte is range-restricted after `0xF0` (no overlong forms)
and after `0xF4` (no code points above U+10FFFF). -/
def utf8Cont4 (b : Nat) : List Nat → Option (Nat × List Nat)
  | b2 :: b3 :: b4 :: r4 =>
    if (if b = 240 then decide (144 ≤ b2 ∧ b2 ≤ 191)
        else if b = 244 then decide (128 ≤ b2 ∧ b2 ≤ 143)
        else isCont b2) = true ∧ isCont b3 = true ∧ isCont b4 = true then
      some ((b - 240) * 262144 + (b2 - 128) * 4096 + (b3 - 128) * 64 + (b4 - 128), r4)
    else none
  | _ => none

/-- Decode one strict UTF-8 sequence: the decoded code point and the
remaining bytes.  Lead bytes `0x80`-`0xC1` (stray continuations and overlong
2-byte leads) and `0xF5`-`0xFF` are rejected, as CPython's strict decoder
does. -/
def utf8DecodeOne : List Nat → Option (Nat × List Nat)
  | [] => none
  | b :: rest =>
    if b < 128 then some (b, rest)
    else if 194 ≤ b ∧ b ≤ 223 then utf8Cont2 b rest
    else if 224 ≤ b ∧ b ≤ 239 then utf8Cont3 b rest
    else if 240 ≤ b ∧ b ≤ 244 then utf8Cont4 b rest
    else none

/-- Decode a sequence of UTF-8 characters; `fuel` bounds the number of
characters (each decoded character consumes at least one byte, so a byte
count is always enough fuel). -/
def utf8DecodeLoop : Nat → List Nat → Option (List Char)
  | _, [] => some []
  | 0, _ :: _ => none
  | fuel + 1, b :: rest =>
    match utf8DecodeOne (b :: rest) with
    | some (v, remaining) => (utf8DecodeLoop fuel remaining).map (fun t => Char.ofNat v :: t)
    | none => none

/-- Strict UTF-8 decoding (`bytes.decode("utf-8")`): rejects truncated
sequences, stray continuation bytes, overlong forms, surrogates and code
points above U+10FFFF; `none` models `UnicodeDecodeError`. -/
def utf8Decode (input : List Nat) : Option (List Char) :=
  utf8DecodeLoop input.length input

/-- `bytes.decode("latin-1")`: maps every byte value 0..255 to the Unicode
code point of the same value.  On actual bytes this codec cannot fail; the
guard makes the byte range explicit on the `Nat` representation. -/
def latin1DecodeBytes (bs : List Nat) : Option (List Char) :=
  if bs.all (fun b => decide (b < 256)) = true then
    some (bs.map (fun b => Char.ofNat b))
  else none

example : utf8Decode (utf8Encode ("héllo ✓ 𝄞".toList)) = some ("héllo ✓ 𝄞".toList) := by decide
example : utf8Decode [104, 105] = some ['h', 'i'] := by decide
example : utf8Decode [200] = none := by decide
example : utf8Decode [237, 160, 128] = none := by decide
example : latin1DecodeBytes [200, 65] = some [Char.ofNat 200, 'A'] := by decide

/-! ### The `__VIEWSTATE` extractor regex -/

/-- The literal `name="__VIEWSTATE"` of the extraction regex, lowered. -/
def namePat : List Char := "name=\"__viewstate\"".toList

/-- The literal `value="` of the extraction regex, lowered. -/
def valuePat : List Char := "value=\"".toList

/-- The capture `([^"]*)"`: the characters up to the first `"`, which must
exist (a greedy `[^"]*` followed by a literal `"` matches exactly this). -/
def capQuote : List Char → Option (List Char)
  | [] => none
  | c :: cs => if c = '"' then some [] else (capQuote cs).map (fun r => c :: r)

/-- The number of consecutive characters at the head that are not `>` — the
maximal extent of the greedy `[^>]*`. -/
def windowLen : List Char → Nat
  | [] => 0
  | c :: cs => if c = '>' then 0 else windowLen cs + 1

/-- Backtracking of the greedy `[^>]*` followed by `value="([^"]*)"`: try the
gap length `g` first (largest first), i.e. the literal `value="` at position
`p + g` followed by a successful capture; on failure shrink the gap. -/
def tryG (s : List Char) (p : Nat) : Nat → Option (List Char)
  | 0 => if ciMatchAt s p valuePat = true then capQuote (s.drop (p + 7)) else none
  | g + 1 =>
    if ciMatchAt s (p + (g + 1)) valuePat = true then
      match capQuote (s.drop (p + (g + 1) + 7)) with
      | some cap => some cap
      | none => tryG s p g
    else tryG s p g

/-- The tail `[^>]*value="([^"]*)"` of the extraction regex, matched from
position `p` (just after `name="__VIEWSTATE"`). -/
def vsTailMatch (s : List Char) (p : Nat) : Option (List Char) :=
  tryG s p (windowLen (s.drop p))

/-- `re.search` of `name="__VIEWSTATE"[^>]*value="([^"]*)"` (IGNORECASE):
positions are tried from left to right; at each position the name literal
must match case-insensitively and the tail must then succeed. -/
def vsSearchAux (s : List Char) (i fuel : Nat) : Option (List Char) :=
  match fuel with
  | 0 => none
  | fuel + 1 =>
    if ciMatchAt s i namePat = true then
      match vsTailMatch s (i + 18) with
      | some cap => some cap
      | none => vsSearchAux s (i + 1) fuel
    else vsSearchAux s (i + 1) fuel

/-- The captured `__VIEWSTATE` attribute value of the first match, if any. -/
def vsSearch (s : List Char) : Option (List Char) :=
  vsSearchAux s 0 (s.length + 1)

example : vsSearch ("<input name=\"__VIEWSTATE\" value=\"QUJD\" />".toList)
    = some ("QUJD".toList) := by decide
example : vsSearch ("<input type=\"hidden\" NAME=\"__viewstate\" id=\"x\" value=\"dGVzdA==\">".toList)
    = some ("dGVzdA==".toList) := by decide
example : vsSearch ("<input name=\"__VIEWSTATE\" value=\"QUJD\" data-value=\"ZZZZ\">".toList)
    = some ("ZZZZ".toList) := by decide
example : vsSearch ("no viewstate here".toList) = none := by decide
example : vsSearch ("<input value=\"QUJD\" name=\"__VIEWSTATE\">".toList) = none := by decide

/-! ### `decode_viewstate` (the spec's `extract_and_decode`) -/

/-- The outcome of `decode_viewstate`, labelled by the spec's error taxonomy:
`notFound` and `invalidB64` are the two `return None` branches (`NotFound`
and `InvalidEncoding`), `text` is a returned string, and `hexDump` is the
string-typed hex diagnostic returned when even Latin-1 decoding fails
(the spec's `UndecodableBinary`). -/
inductive VsResult where
  | notFound : VsResult
  | invalidB64 : VsResult
  | text : List Char → VsResult
  | hexDump : List Nat → VsResult
deriving DecidableEq

/-- Text decoding of the raw (not decompressed) base64 payload, lines 44-55
of `src/app.py`: strict UTF-8, then Latin-1, then the hex-dump string. -/
def rawTextDecode (bs : List Nat) : VsResult :=
  match utf8Decode bs with
  | some t => .text t
  | none =>
    match latin1DecodeBytes bs with
    | some t => .text t
    | none => .hexDump bs

/-- Text decoding of a successfully decompressed payload, lines 35-41 of
`src/app.py`: strict UTF-8 then Latin-1.  This Latin-1 call has no local
handler, so a failure would fall to the outer `except Exception` and
return `None` (same observable result as `invalidB64`). -/
def decompressedTextDecode (bs : List Nat) : VsResult :=
  match utf8Decode bs with
  | some t => .text t
  | none =>
    match latin1DecodeBytes bs with
    | some t => .text t
    | none => .invalidB64

/-- Lines 26-62 of `src/app.py`: base64-decode the captured value (both
`binascii.Error` and the ASCII-encode failure return `None` — the spec's
`InvalidEncoding`), attempt zlib decompression with silent fallback to the
raw bytes, then decode the working byte buffer as text. -/
def decodePayload (captured : List Char) : VsResult :=
  match b64decodeStr captured with
  | none => .invalidB64
  | some bytes =>
    match zlibDecompress bytes with
    | some dec => decompressedTextDecode dec
    | none => rawTextDecode bytes

/-- Model of `decode_viewstate` from `src/app.py` (the spec's
`extract_and_decode`): locate the attribute value, then decode it. -/
def decode_viewstate (html : List Char) : VsResult :=
  match vsSearch html with
  | none => .notFound
  | some captured => decodePayload captured

example : decode_viewstate ("<input name=\"__VIEWSTATE\" value=\"\" />".toList)
    = .text [] := by decide
example : decode_viewstate ("<input name=\"__VIEWSTATE\" value=\"QUJD\" />".toList)
    = .text ("ABC".toList) := by decide
example : decode_viewstate ("<input name=\"__VIEWSTATE\" value=\"QQ=\" />".toList)
    = .invalidB64 := by decide
example : decode_viewstate ("nothing".toList) = .notFound := by decide

/-- The spec's "minimal attribute string" embedding a payload (§8,
round-trip property): the payload placed as the double-quoted value of an
input element named `__VIEWSTATE`. -/
def embedViewstate (payload : List Char) : List Char :=
  "<input name=\"__VIEWSTATE\" value=\"".toList ++ payload ++ "\" />".toList

/-- A character kept by non-strict base64 decoding: alphabet or padding. -/
def isB64Alphabet (c : Char) : Bool :=
  (b64val c).isSome || decide (c = '=')

/-- The result is the `UndecodableBinary` hex-dump diagnostic. -/
def isUndecodableBinary : VsResult → Bool
  | .hexDump _ => true
  | _ => false

/-- The PIN match predicate exactly as the claims/spec word it, i.e. with
ARBITRARY intervening gap characters — no newline restriction.  The code's
`.*?` (without `re.DOTALL`) does not match a newline, so this predicate is
strictly more permissive than `PinMatchAt`; it is used to exhibit the
divergence. -/
def PinMatchArbAt (s : List Char) (i g : Nat) : Prop :=
  ciMatchAt s i ['p', 'i', 'n'] = true ∧
  reDigit (if g = 0 then s.getD (i + 2) ' ' else (s.drop (i + 3)).getD (g - 1) ' ') = false ∧
  (sixDigits ((s.drop (i + 3)).drop g)).isSome = true

/-! ### Characterization of `find_pin` -/

/-- Declarative match of the gap-and-digits tail at gap length `g`: every gap
character is a non-newline (`.`), the character immediately before the digit
run — `prev` when the gap is empty, else the last gap character — is not a
`\d` digit (the lookbehind `(?<!\d)`), and a run of six `\d` digits follows
the gap. -/
def GapMatchAt (prev : Char) (t : List Char) (g : Nat) : Prop :=
  (∀ k < g, t.getD k ' ' ≠ '\n') ∧
  reDigit (if g = 0 then prev else t.getD (g - 1) ' ') = false ∧
  (sixDigits (t.drop g)).isSome = true

/-- Declarative match of the whole PIN regex at start position `i` with gap
length `g`: the literal `PIN` matches case-insensitively at `i`, and the tail
matches with gap `g` right after it (the character before the gap being the
final letter of the matched `PIN`). -/
def PinMatchAt (s : List Char) (i g : Nat) : Prop :=
  ciMatchAt s i ['p', 'i', 'n'] = true ∧
  GapMatchAt (s.getD (i + 2) ' ') (s.drop (i + 3)) g

theorem sixDigits_eq_some {t r : List Char} (h : sixDigits t = some r) :
    r = t.take 6 := by
  unfold sixDigits at h
  split at h
  · exact ((Option.some.injEq _ _).mp h).symm
  · exact absurd h (by simp)

theorem gapMatchAt_zero {prev : Char} {t : List Char} :
    GapMatchAt prev t 0 ↔ (reDigit prev = false ∧ (sixDigits t).isSome = true) := by
  unfold GapMatchAt
  simp

theorem gapMatchAt_succ {prev c : Char} {cs : List Char} {g : Nat} :
    GapMatchAt prev (c :: cs) (g + 1) ↔ (c ≠ '\n' ∧ GapMatchAt c cs g) := by
  unfold GapMatchAt
  constructor
  · rintro ⟨hgap, hlb, hdig⟩
    refine ⟨by simpa using hgap 0 (Nat.succ_pos g), ?_, ?_, by simpa using hdig⟩
    · intro k hk
      simpa using hgap (k + 1) (by omega)
    · rcases Nat.eq_zero_or_pos g with hg | hg
      · subst hg; simpa using hlb
      · have : g - 1 + 1 = g := by omega
        rw [if_neg (by omega)]
        rw [if_neg (by omega)] at hlb
        have h2 : (c :: cs).getD (g + 1 - 1) ' ' = cs.getD (g - 1) ' ' := by
          rw [show g + 1 - 1 = (g - 1) + 1 by omega, List.getD_cons_succ]
        rw [h2] at hlb
        exact hlb
  · rintro ⟨hc, hgap, hlb, hdig⟩
    refine ⟨?_, ?_, by simpa using hdig⟩
    · intro k hk
      match k with
      | 0 => simpa using hc
      | k + 1 => simpa using hgap k (by omega)
    · rw [if_neg (by omega)]
      rcases Nat.eq_zero_or_pos g with hg | hg
      · subst hg; simpa using hlb
      · rw [if_neg (by omega)] at hlb
        rw [show g + 1 - 1 = (g - 1) + 1 by omega, List.getD_cons_succ]
        exact hlb

theorem pinGapScan_none {prev : Char} {t : List Char}
    (h : pinGapScan prev t = none) : ∀ g, ¬ GapMatchAt prev t g := by
  induction t generalizing prev with
  | nil =>
    intro g hg
    rw [pinGapScan] at h
    rcases hg with ⟨-, hlb, hdig⟩
    rcases Nat.eq_zero_or_pos g with rfl | hgpos
    · rw [if_pos ⟨hlb, by simpa using hdig⟩] at h
      simp [h] at hdig
    · revert hdig
      simp [sixDigits]
  | cons c cs ih =>
    intro g hg
    rw [pinGapScan] at h
    by_cases hhead : reDigit prev = false ∧ (sixDigits (c :: cs)).isSome = true
    · rw [if_pos hhead] at h
      rw [h] at hhead
      simp at hhead
    · rw [if_neg hhead] at h
      rcases Nat.eq_zero_or_pos g with rfl | hgpos
      · exact hhead (gapMatchAt_zero.mp hg)
      · have hg' : GapMatchAt prev (c :: cs) ((g - 1) + 1) := by
          rw [show g - 1 + 1 = g by omega]; exact hg
        rcases gapMatchAt_succ.mp hg' with ⟨hc, hcs⟩
        rw [if_neg (by simpa using hc)] at h
        exact ih h (g - 1) hcs

theorem pinGapScan_some {prev : Char} {t r : List Char}
    (h : pinGapScan prev t = some r) :
    ∃ g, GapMatchAt prev t g ∧ r = (t.drop g).take 6 ∧
      ∀ e < g, ¬ GapMatchAt prev t e := by
  induction t generalizing prev with
  | nil =>
    rw [pinGapScan] at h
    by_cases hhead : reDigit prev = false ∧ (sixDigits ([] : List Char)).isSome = true
    · simp [sixDigits] at hhead
    · rw [if_neg hhead] at h
      exact absurd h (by simp)
  | cons c cs ih =>
    rw [pinGapScan] at h
    by_cases hhead : reDigit prev = false ∧ (sixDigits (c :: cs)).isSome = true
    · rw [if_pos hhead] at h
      refine ⟨0, gapMatchAt_zero.mpr ⟨hhead.1, by simpa using hhead.2⟩, ?_, by omega⟩
      simpa using sixDigits_eq_some h
    · rw [if_neg hhead] at h
      by_cases hc : c = '\n'
      · rw [if_pos hc] at h; exact absurd h (by simp)
      · rw [if_neg hc] at h
        rcases ih h with ⟨g, hg, hr, hmin⟩
        refine ⟨g + 1, gapMatchAt_succ.mpr ⟨hc, hg⟩, by simpa using hr, ?_⟩
        intro e he
        rcases Nat.eq_zero_or_pos e with rfl | hepos
        · intro habs; exact hhead (gapMatchAt_zero.mp habs)
        · intro habs
          have habs' : GapMatchAt prev (c :: cs) ((e - 1) + 1) := by
            rw [show e - 1 + 1 = e by omega]; exact habs
          exact hmin (e - 1) (by omega) (gapMatchAt_succ.mp habs').2

theorem ciPrefix_length {pat : List Char} : ∀ {t : List Char},
    ciPrefix t pat = true → pat.length ≤ t.length := by
  induction pat with
  | nil => intro t _; simp
  | cons p ps ih =>
    intro t h
    match t with
    | [] => exact absurd h (by simp [ciPrefix])
    | c :: cs =>
      rw [ciPrefix, Bool.and_eq_true] at h
      simpa using ih h.2

theorem pinMatchAt_length {s : List Char} {i g : Nat} (h : PinMatchAt s i g) :
    i + 3 ≤ s.length := by
  have h3 := ciPrefix_length h.1
  simp [List.length_drop] at h3
  omega

theorem pinMatchAt_shift {a : Char} {l : List Char} {i g : Nat} :
    PinMatchAt (a :: l) (i + 1) g ↔ PinMatchAt l i g := by
  unfold PinMatchAt ciMatchAt
  rw [show i + 1 + 2 = (i + 2) + 1 by omega, show i + 1 + 3 = (i + 3) + 1 by omega,
    List.drop_succ_cons, List.drop_succ_cons, List.getD_cons_succ]

theorem pinMatchAt_head {a x y : Char} {rest : List Char} {g : Nat} :
    PinMatchAt (a :: x :: y :: rest) 0 g ↔
      (ciPrefix (a :: x :: y :: rest) ['p', 'i', 'n'] = true ∧ GapMatchAt y rest g) := by
  unfold PinMatchAt ciMatchAt
  simp [List.getD_cons_succ]

theorem pinSearch_char (s : List Char) :
    match pinSearch s with
    | none => ∀ i g, ¬ PinMatchAt s i g
    | some r => ∃ i g, PinMatchAt s i g ∧ r = (s.drop (i + 3 + g)).take 6 ∧
        ∀ i' g', PinMatchAt s i' g' → i < i' ∨ (i = i' ∧ g ≤ g') := by
  induction s with
  | nil =>
    show ∀ i g, ¬ PinMatchAt ([] : List Char) i g
    intro i g hm
    have := pinMatchAt_length hm
    simp at this
  | cons a l ih =>
    match l with
    | [] =>
      show ∀ i g, ¬ PinMatchAt [a] i g
      intro i g hm
      have := pinMatchAt_length hm
      simp at this
    | [x] =>
      show ∀ i g, ¬ PinMatchAt [a, x] i g
      intro i g hm
      have := pinMatchAt_length hm
      simp at this
    | x :: y :: rest =>
      by_cases hpin : ciPrefix (a :: x :: y :: rest) ['p', 'i', 'n'] = true
      · rcases hscan : pinGapScan y rest with _ | r
        · have heq : pinSearch (a :: x :: y :: rest) = pinSearch (x :: y :: rest) := by
            rw [pinSearch, if_pos hpin, hscan]
          rw [heq]
          have hno0 : ∀ g, ¬ PinMatchAt (a :: x :: y :: rest) 0 g := by
            intro g hm
            exact pinGapScan_none hscan g (pinMatchAt_head.mp hm).2
          rcases hps : pinSearch (x :: y :: rest) with _ | r
          · rw [hps] at ih
            show ∀ i g, ¬ PinMatchAt (a :: x :: y :: rest) i g
            intro i g hm
            match i with
            | 0 => exact hno0 g hm
            | i + 1 => exact ih i g (pinMatchAt_shift.mp hm)
          · rw [hps] at ih
            rcases ih with ⟨i, g, hm, hr, hmin⟩
            show ∃ i g, PinMatchAt (a :: x :: y :: rest) i g ∧ _
            refine ⟨i + 1, g, pinMatchAt_shift.mpr hm, ?_, ?_⟩
            · rw [show i + 1 + 3 + g = (i + 3 + g) + 1 by omega, List.drop_succ_cons]
              exact hr
            · intro i' g' hm'
              match i' with
              | 0 => exact absurd hm' (hno0 g')
              | i' + 1 =>
                rcases hmin i' g' (pinMatchAt_shift.mp hm') with h | ⟨h1, h2⟩
                · exact Or.inl (by omega)
                · exact Or.inr ⟨by omega, h2⟩
        · have heq : pinSearch (a :: x :: y :: rest) = some r := by
            rw [pinSearch, if_pos hpin, hscan]
          rw [heq]
          rcases pinGapScan_some hscan with ⟨g, hg, hr, hmin⟩
          show ∃ i g, PinMatchAt (a :: x :: y :: rest) i g ∧ _
          refine ⟨0, g, pinMatchAt_head.mpr ⟨hpin, hg⟩, ?_, ?_⟩
          · rw [show 0 + 3 + g = g + 3 by omega, ← List.drop_drop]
            simpa using hr
          · intro i' g' hm'
            match i' with
            | 0 =>
              refine Or.inr ⟨rfl, ?_⟩
              have hg' := (pinMatchAt_head.mp hm').2
              by_contra hlt
              exact hmin g' (by omega) hg'
            | i' + 1 => exact Or.inl (by omega)
      · have heq : pinSearch (a :: x :: y :: rest) = pinSearch (x :: y :: rest) := by
          rw [pinSearch, if_neg hpin]
        rw [heq]
        have hno0 : ∀ g, ¬ PinMatchAt (a :: x :: y :: rest) 0 g := by
          intro g hm
          exact hpin (by simpa [ciMatchAt] using hm.1)
        rcases hps : pinSearch (x :: y :: rest) with _ | r
        · rw [hps] at ih
          show ∀ i g, ¬ PinMatchAt (a :: x :: y :: rest) i g
          intro i g hm
          match i with
          | 0 => exact hno0 g hm
          | i + 1 => exact ih i g (pinMatchAt_shift.mp hm)
        · rw [hps] at ih
          rcases ih with ⟨i, g, hm, hr, hmin⟩
          show ∃ i g, PinMatchAt (a :: x :: y :: rest) i g ∧ _
          refine ⟨i + 1, g, pinMatchAt_shift.mpr hm, ?_, ?_⟩
          · rw [show i + 1 + 3 + g = (i + 3 + g) + 1 by omega, List.drop_succ_cons]
            exact hr
          · intro i' g' hm'
            match i' with
            | 0 => exact absurd hm' (hno0 g')
            | i' + 1 =>
              rcases hmin i' g' (pinMatchAt_shift.mp hm') with h | ⟨h1, h2⟩
              · exact Or.inl (by omega)
              · exact Or.inr ⟨by omega, h2⟩

theorem sixDigits_isSome_shape {u : List Char} (h : (sixDigits u).isSome = true) :
    (u.take 6).length = 6 ∧ (u.take 6).all reDigit = true := by
  unfold sixDigits at h
  split at h
  case isTrue hc => exact ⟨by simp [List.length_take]; omega, hc.2⟩
  case isFalse => simp at h

/-- C4 (counterexample): the claim allows arbitrary intervening characters
between the label and the digit run, but the regex `.` does not match a
newline: `"PIN\n123456"` satisfies the claim's pattern (label `PIN`, a
one-character gap, a six-digit run not preceded by a digit) yet `find_pin`
returns `none`. -/
theorem c4_counterexample :
    PinMatchArbAt ("PIN\n123456".toList) 0 1 ∧ find_pin ("PIN\n123456".toList) = none := by
  constructor
  · unfold PinMatchArbAt
    decide
  · decide

/-- C4 (amended: intervening characters must not include a newline):
`find_pin` returns `none` exactly when no position admits a match consisting
of a case-insensitive `PIN`, a lazy gap of non-newline characters, and a
six-digit run whose preceding character is not a digit; and when it returns
a result, that result is the six-digit run of the left-most match with the
shortest gap (lexicographically least `(i, g)`). -/
theorem c4_find_pin_first_match (s : List Char) :
    match find_pin s with
    | none => ∀ i g, ¬ PinMatchAt s i g
    | some r => ∃ i g, PinMatchAt s i g ∧ r = (s.drop (i + 3 + g)).take 6 ∧
        ∀ i' g', PinMatchAt s i' g' → i < i' ∨ (i = i' ∧ g ≤ g') := by
  unfold find_pin
  by_cases hs : s = []
  · subst hs
    show ∀ i g, ¬ PinMatchAt ([] : List Char) i g
    intro i g hm
    have := pinMatchAt_length hm
    simp at this
  · rw [if_neg hs]
    exact pinSearch_char s

/-- C1 (counterexample): the claim says a 7-digit run after `PIN` yields no
match, but the lookbehind only rejects windows preceded by a digit, so the
leading six digits (preceded by `N`) are matched:
`find_pin("...PIN1234567...")` is `"123456"`, not absent. -/
theorem c1_counterexample :
    find_pin ("...PIN1234567...".toList) = some ("123456".toList) := by decide

/-- C1 (amended): when the label `PIN` is immediately followed by a run of
six or more digits, `find_pin` returns the first six digits of that run —
the lookbehind `(?<!\d)` only prevents a match whose window is preceded by a
digit, and the leading window of the run is preceded by the `N`. -/
theorem c1_leading_six_of_run (ds : List Char) (hall : ds.all reDigit = true)
    (hlen : 6 ≤ ds.length) :
    find_pin ('P' :: 'I' :: 'N' :: ds) = some (ds.take 6) := by
  have hpin : ciPrefix ('P' :: 'I' :: 'N' :: ds) ['p', 'i', 'n'] = true := by
    have hnil : ciPrefix ds [] = true := by
      cases ds <;> rfl
    simp [ciPrefix, hnil]
    decide
  have htake : (ds.take 6).all reDigit = true := by
    rw [List.all_eq_true] at hall ⊢
    intro x hx
    exact hall x (List.take_subset 6 ds hx)
  have hsix : sixDigits ds = some (ds.take 6) := by
    unfold sixDigits
    rw [if_pos ⟨hlen, htake⟩]
  have hgap : pinGapScan 'N' ds = some (ds.take 6) := by
    rw [pinGapScan.eq_def, if_pos ⟨by decide, by rw [hsix]; rfl⟩, hsix]
  have : pinSearch ('P' :: 'I' :: 'N' :: ds) = some (ds.take 6) := by
    rw [pinSearch, if_pos hpin, hgap]
  rw [find_pin, if_neg (by simp), this]

/-- C1 (witness): the amended statement at the concrete run `1234567`. -/
theorem c1_leading_six_witness :
    "1234567".toList.all reDigit = true ∧ 6 ≤ "1234567".toList.length ∧
    find_pin ('P' :: 'I' :: 'N' :: "1234567".toList) = some ("1234567".toList.take 6) :=
  ⟨by decide, by decide, c1_leading_six_of_run ("1234567".toList) (by decide) (by decide)⟩

/-- C2 (counterexample): `\d` in a CPython `str` regex matches any Unicode
decimal digit, so `find_pin` can return non-ASCII digits: on
`PIN` followed by the six ARABIC-INDIC digits U+0660..U+0665 it returns
those six characters, which are not in `0`-`9`. -/
theorem c2_counterexample :
    find_pin ('P' :: 'I' :: 'N' :: [Char.ofNat 1632, Char.ofNat 1633, Char.ofNat 1634,
        Char.ofNat 1635, Char.ofNat 1636, Char.ofNat 1637]) =
      some [Char.ofNat 1632, Char.ofNat 1633, Char.ofNat 1634, Char.ofNat 1635,
        Char.ofNat 1636, Char.ofNat 1637] ∧
    ([Char.ofNat 1632, Char.ofNat 1633, Char.ofNat 1634, Char.ofNat 1635,
        Char.ofNat 1636, Char.ofNat 1637].all
      (fun c => decide (48 ≤ c.toNat ∧ c.toNat ≤ 57)) = false) := by
  constructor
  · decide
  · decide

/-- C2 (amended: Unicode decimal digits rather than ASCII digits): whenever
`find_pin` returns a non-absent result, that result has exactly six
characters, each a `\d` digit (Unicode category Nd) — but not necessarily
an ASCII digit. -/
theorem c2_six_unicode_digits (s r : List Char) (h : find_pin s = some r) :
    r.length = 6 ∧ r.all reDigit = true := by
  have hps : pinSearch s = some r := by
    unfold find_pin at h
    split at h
    · exact absurd h (by simp)
    · exact h
  have hchar := pinSearch_char s
  rw [hps] at hchar
  rcases hchar with ⟨i, g, hm, hr, -⟩
  have hdig := hm.2.2.2
  rw [show (s.drop (i + 3)).drop g = s.drop (i + 3 + g) by rw [List.drop_drop]] at hdig
  rw [hr]
  exact sixDigits_isSome_shape hdig

/-- C2 (witness): the amended statement at a concrete input. -/
theorem c2_six_unicode_digits_witness :
    find_pin ("PIN=778899".toList) = some ("778899".toList) ∧
    ("778899".toList.length = 6 ∧ "778899".toList.all reDigit = true) :=
  ⟨by decide, c2_six_unicode_digits ("PIN=778899".toList) ("778899".toList) (by decide)⟩

/-! ### Byte-range invariants and the error branches -/

theorem b64val_lt {c : Char} {v : Nat} (h : b64val c = some v) : v < 64 := by
  unfold b64val at h
  split_ifs at h <;> simp_all <;> omega

theorem a2b_mem_lt : ∀ (cs : List Char) (quadPos leftchar pads : Nat) (bs : List Nat),
    a2b quadPos leftchar pads cs = some bs →
    (quadPos = 1 → leftchar < 64) → (quadPos = 2 → leftchar < 16) →
    (3 ≤ quadPos → leftchar < 4) → ∀ b ∈ bs, b < 256 := by
  intro cs
  induction cs with
  | nil =>
    intro q l p bs h _ _ _ b hb
    rw [a2b] at h
    split at h
    · rw [← (Option.some.injEq _ _).mp h] at hb
      simp at hb
    · exact absurd h (by simp)
  | cons c cs ih =>
    intro q l p bs h h1 h2 h3 b hb
    rw [a2b] at h
    by_cases hc : c = '='
    · rw [if_pos hc] at h
      split_ifs at h with hp1 hp2
      · rw [← (Option.some.injEq _ _).mp h] at hb
        simp at hb
      · exact ih q l (p + 1) bs h h1 h2 h3 b hb
      · exact ih q l p bs h h1 h2 h3 b hb
    · rw [if_neg hc] at h
      rcases hv : b64val c with _ | v
      · rw [hv] at h
        exact ih q l p bs h h1 h2 h3 b hb
      · rw [hv] at h
        have hv64 := b64val_lt hv
        match q with
        | 0 =>
          exact ih 1 v 0 bs h (fun _ => hv64) (by omega) (by omega) b hb
        | 1 =>
          rcases Option.map_eq_some'.mp h with ⟨r, hr, hbs⟩
          rw [← hbs] at hb
          rcases List.mem_cons.mp hb with rfl | hb'
          · have := h1 rfl
            omega
          · exact ih 2 (v % 16) 0 r hr (by omega) (fun _ => by omega) (by omega) b hb'
        | 2 =>
          rcases Option.map_eq_some'.mp h with ⟨r, hr, hbs⟩
          rw [← hbs] at hb
          rcases List.mem_cons.mp hb with rfl | hb'
          · have := h2 rfl
            omega
          · exact ih 3 (v % 4) 0 r hr (by omega) (by omega) (fun _ => by omega) b hb'
        | n + 3 =>
          rcases Option.map_eq_some'.mp h with ⟨r, hr, hbs⟩
          rw [← hbs] at hb
          rcases List.mem_cons.mp hb with rfl | hb'
          · have := h3 (by omega)
            omega
          · exact ih 0 0 0 r hr (by omega) (by omega) (by omega) b hb'

theorem b64decodeStr_mem_lt {s : List Char} {bs : List Nat}
    (h : b64decodeStr s = some bs) : ∀ b ∈ bs, b < 256 := by
  unfold b64decodeStr at h
  split at h
  · exact a2b_mem_lt s 0 0 0 bs h (by omega) (by omega) (by omega)
  · exact absurd h (by simp)

theorem inflateStored_mem : ∀ (fuel : Nat) (input d r : List Nat),
    inflateStored fuel input = some (d, r) → ∀ b ∈ d, b ∈ input := by
  intro fuel
  induction fuel with
  | zero =>
    intro input d r h
    rw [inflateStored] at h
    exact absurd h (by simp)
  | succ fuel ih =>
    intro input d r h b hb
    match input with
    | [] => rw [inflateStored] at h <;> simp_all
    | [u1] => rw [inflateStored] at h <;> simp_all
    | [u1, u2] => rw [inflateStored] at h <;> simp_all
    | [u1, u2, u3] => rw [inflateStored] at h <;> simp_all
    | [u1, u2, u3, u4] => rw [inflateStored] at h <;> simp_all
    | hB :: l0 :: l1 :: n0 :: n1 :: rest =>
      rw [inflateStored] at h
      split_ifs at h with hbt hlen hfin
      · have hd : d = rest.take (l0 + 256 * l1) :=
          (((Prod.mk.injEq _ _ _ _).mp (Option.some.inj h)).1).symm
        rw [hd] at hb
        have : b ∈ rest := List.take_subset _ _ hb
        simp [this]
      · rcases hrec : inflateStored fuel (rest.drop (l0 + 256 * l1)) with _ | ⟨d2, r2⟩
        · rw [hrec] at h
          simp at h
        · rw [hrec] at h
          simp only [Option.some.injEq, Prod.mk.injEq] at h
          rw [← h.1] at hb
          rcases List.mem_append.mp hb with hb' | hb'
          · have : b ∈ rest := List.take_subset _ _ hb'
            simp [this]
          · have hbr : b ∈ rest.drop (l0 + 256 * l1) := ih _ d2 r2 hrec b hb'
            have : b ∈ rest := List.drop_subset _ _ hbr
            simp [this]

theorem zlibDecompress_mem_lt {input data : List Nat}
    (h : zlibDecompress input = some data) (hin : ∀ b ∈ input, b < 256) :
    ∀ b ∈ data, b < 256 := by
  match input, hin with
  | [], hin => rw [zlibDecompress] at h <;> simp_all
  | [cmf], hin => rw [zlibDecompress] at h <;> simp_all
  | cmf :: flg :: rest, hin =>
    rw [zlibDecompress] at h
    split_ifs at h with hdr
    rcases hinf : inflateStored (rest.length + 1) rest with _ | ⟨d0, trailer⟩
    · rw [hinf] at h
      simp at h
    · rw [hinf] at h
      simp only [] at h
      split_ifs at h with hck
      intro b hb
      have hd : data = d0 := (Option.some.inj h).symm
      rw [hd] at hb
      have hbr : b ∈ rest := inflateStored_mem _ rest d0 trailer hinf b hb
      exact hin b (by simp [hbr])

theorem a2b_filter : ∀ (cs : List Char) (q l p : Nat),
    a2b q l p cs = a2b q l p (cs.filter isB64Alphabet) := by
  intro cs
  induction cs with
  | nil => intro q l p; rfl
  | cons c cs ih =>
    intro q l p
    by_cases hc : c = '='
    · have hkeep : (c :: cs).filter isB64Alphabet = c :: cs.filter isB64Alphabet := by
        simp [List.filter_cons, isB64Alphabet, hc]
      rw [hkeep, a2b, a2b, if_pos hc, if_pos hc]
      split_ifs with h1 h2
      · rfl
      · exact ih q l (p + 1)
      · exact ih q l p
    · rcases hv : b64val c with _ | v
      · have hdrop : (c :: cs).filter isB64Alphabet = cs.filter isB64Alphabet := by
          simp [List.filter_cons, isB64Alphabet, hv, hc]
        rw [hdrop, a2b, if_neg hc, hv]
        exact ih q l p
      · have hkeep : (c :: cs).filter isB64Alphabet = c :: cs.filter isB64Alphabet := by
          simp [List.filter_cons, isB64Alphabet, hv]
        rw [hkeep, a2b, a2b, if_neg hc, if_neg hc, hv]
        match q with
        | 0 =>
          show a2b 1 v 0 cs = a2b 1 v 0 (cs.filter isB64Alphabet)
          exact ih 1 v 0
        | 1 =>
          show (a2b 2 (v % 16) 0 cs).map _ = (a2b 2 (v % 16) 0 (cs.filter isB64Alphabet)).map _
          rw [ih 2 (v % 16) 0]
        | 2 =>
          show (a2b 3 (v % 4) 0 cs).map _ = (a2b 3 (v % 4) 0 (cs.filter isB64Alphabet)).map _
          rw [ih 3 (v % 4) 0]
        | n + 3 =>
          show (a2b 0 0 0 cs).map _ = (a2b 0 0 0 (cs.filter isB64Alphabet)).map _
          rw [ih 0 0 0]

theorem latin1_some {bs : List Nat} (hb : ∀ b ∈ bs, b < 256) :
    latin1DecodeBytes bs = some (bs.map (fun b => Char.ofNat b)) := by
  unfold latin1DecodeBytes
  rw [if_pos]
  exact List.all_eq_true.mpr (fun b hbmem => by simpa using hb b hbmem)

/-- C8: the `UndecodableBinary` branch (the hex-dump string of lines 52-54 of
`src/app.py`) is unreachable: Latin-1 decoding succeeds on every byte buffer
the pipeline can produce, because base64 decoding only emits byte values
below 256 and stored-block decompression only returns bytes of its input. -/
theorem c8_hexdump_unreachable (html : List Char) :
    isUndecodableBinary (decode_viewstate html) = false := by
  unfold decode_viewstate
  rcases hvs : vsSearch html with _ | cap
  · rfl
  · show isUndecodableBinary (decodePayload cap) = false
    unfold decodePayload
    rcases hb : b64decodeStr cap with _ | bytes
    · rfl
    · show isUndecodableBinary (match zlibDecompress bytes with
        | some dec => decompressedTextDecode dec
        | none => rawTextDecode bytes) = false
      have hlt := b64decodeStr_mem_lt hb
      rcases hz : zlibDecompress bytes with _ | dec
      · show isUndecodableBinary (rawTextDecode bytes) = false
        unfold rawTextDecode
        rcases hu : utf8Decode bytes with _ | t
        · rw [latin1_some hlt]
          rfl
        · rfl
      · show isUndecodableBinary (decompressedTextDecode dec) = false
        unfold decompressedTextDecode
        rcases hu : utf8Decode dec with _ | t
        · rcases hl : latin1DecodeBytes dec with _ | t
          · rfl
          · rfl
        · rfl

/-- C6: when the base64 payload decodes but is not valid compressed data
(`zlibDecompress` fails), `decode_viewstate` does not fail — it proceeds to
text decoding on the unchanged raw decoded bytes (`rawTextDecode bytes`). -/
theorem c6_zlib_failure_falls_back (html cap : List Char) (bytes : List Nat)
    (hvs : vsSearch html = some cap) (hb : b64decodeStr cap = some bytes)
    (hz : zlibDecompress bytes = none) :
    decode_viewstate html = rawTextDecode bytes := by
  unfold decode_viewstate
  rw [hvs]
  show decodePayload cap = rawTextDecode bytes
  unfold decodePayload
  rw [hb]
  show (match zlibDecompress bytes with
    | some dec => decompressedTextDecode dec
    | none => rawTextDecode bytes) = rawTextDecode bytes
  rw [hz]

/-- C6 (witness): `NOTZLIB` is not a zlib stream, so its base64 encoding
falls through to raw text decoding. -/
theorem c6_zlib_failure_witness :
    vsSearch ("<input name=\"__VIEWSTATE\" value=\"Tk9UWkxJQg==\" />".toList)
      = some ("Tk9UWkxJQg==".toList) ∧
    b64decodeStr ("Tk9UWkxJQg==".toList) = some [78, 79, 84, 90, 76, 73, 66] ∧
    zlibDecompress [78, 79, 84, 90, 76, 73, 66] = none ∧
    decode_viewstate ("<input name=\"__VIEWSTATE\" value=\"Tk9UWkxJQg==\" />".toList)
      = rawTextDecode [78, 79, 84, 90, 76, 73, 66] :=
  ⟨by decide, by decide, by decide,
    c6_zlib_failure_falls_back ("<input name=\"__VIEWSTATE\" value=\"Tk9UWkxJQg==\" />".toList)
      ("Tk9UWkxJQg==".toList) [78, 79, 84, 90, 76, 73, 66]
      (by decide) (by decide) (by decide)⟩

/-- C9: an empty `value=""` decodes to the empty byte string, zlib
decompression fails and falls through, and the empty byte string decodes as
empty text — no fault, result is the empty string. -/
theorem c9_empty_value_empty_text :
    decode_viewstate ("<input name=\"__VIEWSTATE\" value=\"\" />".toList)
      = VsResult.text [] := by decide

/-- C3 (counterexample): a captured value containing a character outside the
base64 alphabet (a space) does NOT fail with `InvalidEncoding`: the invalid
character is discarded and `Q Q==` decodes to the text `A`. -/
theorem c3_counterexample :
    decode_viewstate ("<input name=\"__VIEWSTATE\" value=\"Q Q==\" />".toList)
      = VsResult.text ['A'] ∧
    VsResult.text ['A'] ≠ VsResult.invalidB64 := by
  constructor
  · decide
  · decide

/-- C3 (amended: non-strict decoding discards invalid characters; only a
padding/length error — or a non-ASCII captured value — fails): base64
decoding of the captured value is insensitive to characters outside the
alphabet, and `decode_viewstate` returns `InvalidEncoding` exactly when
base64 decoding of the captured value fails. -/
theorem c3_invalid_encoding_iff_b64_failure (s cap : List Char)
    (hvs : vsSearch s = some cap)
    (hascii : cap.all (fun c => decide (c.toNat < 128)) = true) :
    b64decodeStr cap = b64decodeStr (cap.filter isB64Alphabet) ∧
    (decode_viewstate s = VsResult.invalidB64 ↔ b64decodeStr cap = none) := by
  constructor
  · unfold b64decodeStr
    have hfa : (cap.filter isB64Alphabet).all (fun c => decide (c.toNat < 128)) = true := by
      rw [List.all_eq_true] at hascii ⊢
      exact fun c hcmem => hascii c (List.mem_of_mem_filter hcmem)
    rw [if_pos hascii, if_pos hfa]
    exact a2b_filter cap 0 0 0
  · constructor
    · intro hres
      by_contra hne
      rcases Option.ne_none_iff_exists'.mp hne with ⟨bytes, hb⟩
      have hlt := b64decodeStr_mem_lt hb
      unfold decode_viewstate at hres
      rw [hvs] at hres
      have hres2 : decodePayload cap = VsResult.invalidB64 := hres
      unfold decodePayload at hres2
      rw [hb] at hres2
      have hres3 : (match zlibDecompress bytes with
        | some dec => decompressedTextDecode dec
        | none => rawTextDecode bytes) = VsResult.invalidB64 := hres2
      rcases hz : zlibDecompress bytes with _ | dec
      · rw [hz] at hres3
        have hres4 : rawTextDecode bytes = VsResult.invalidB64 := hres3
        unfold rawTextDecode at hres4
        rcases hu : utf8Decode bytes with _ | t
        · rw [hu, latin1_some hlt] at hres4
          exact absurd hres4 (by simp)
        · rw [hu] at hres4
          exact absurd hres4 (by simp)
      · rw [hz] at hres3
        have hres4 : decompressedTextDecode dec = VsResult.invalidB64 := hres3
        unfold decompressedTextDecode at hres4
        have hdlt := zlibDecompress_mem_lt hz hlt
        rcases hu : utf8Decode dec with _ | t
        · rw [hu, latin1_some hdlt] at hres4
          exact absurd hres4 (by simp)
        · rw [hu] at hres4
          exact absurd hres4 (by simp)
    · intro hb
      unfold decode_viewstate
      rw [hvs]
      show decodePayload cap = VsResult.invalidB64
      unfold decodePayload
      rw [hb]

/-- C3 (witness): the amended statement at the concrete value `Q Q==`. -/
theorem c3_invalid_encoding_witness :
    b64decodeStr ("Q Q==".toList) = b64decodeStr ("Q Q==".toList.filter isB64Alphabet) ∧
    (decode_viewstate ("<input name=\"__VIEWSTATE\" value=\"Q Q==\" />".toList)
        = VsResult.invalidB64 ↔ b64decodeStr ("Q Q==".toList) = none) :=
  c3_invalid_encoding_iff_b64_failure
    ("<input name=\"__VIEWSTATE\" value=\"Q Q==\" />".toList) ("Q Q==".toList)
    (by decide) (by decide)

/-! ### Base64 round trip -/

theorem b64chr_val : ∀ k < 64, b64val (b64chr k) = some k := by decide

theorem b64chr_props : ∀ k < 64, b64chr k ≠ '=' ∧ (b64chr k).toNat < 128 ∧
    b64chr k ≠ '"' ∧ b64chr k ≠ '>' := by decide

theorem a2b_cons0 {c : Char} {cs : List Char} {v l p : Nat}
    (hc : c ≠ '=') (hv : b64val c = some v) :
    a2b 0 l p (c :: cs) = a2b 1 v 0 cs := by
  rw [a2b, if_neg hc, hv]

theorem a2b_cons1 {c : Char} {cs : List Char} {v l p : Nat}
    (hc : c ≠ '=') (hv : b64val c = some v) :
    a2b 1 l p (c :: cs) = (a2b 2 (v % 16) 0 cs).map (fun r => (l * 4 + v / 16) :: r) := by
  rw [a2b, if_neg hc, hv]

theorem a2b_cons2 {c : Char} {cs : List Char} {v l p : Nat}
    (hc : c ≠ '=') (hv : b64val c = some v) :
    a2b 2 l p (c :: cs) = (a2b 3 (v % 4) 0 cs).map (fun r => (l * 16 + v / 4) :: r) := by
  rw [a2b, if_neg hc, hv]

theorem a2b_cons3 {c : Char} {cs : List Char} {v l p : Nat}
    (hc : c ≠ '=') (hv : b64val c = some v) :
    a2b 3 l p (c :: cs) = (a2b 0 0 0 cs).map (fun r => (l * 64 + v) :: r) := by
  rw [a2b, if_neg hc, hv]

theorem a2b_pad2 {cs : List Char} {l : Nat} :
    a2b 2 l 0 ('=' :: '=' :: cs) = some [] := by
  rw [a2b, if_pos rfl, if_neg (by omega), if_pos (by omega), a2b, if_pos rfl,
    if_pos (by omega)]

theorem a2b_pad3 {cs : List Char} {l p : Nat} :
    a2b 3 l p ('=' :: cs) = some [] := by
  rw [a2b, if_pos rfl, if_pos (by omega)]

theorem a2b_encode : ∀ (bs : List Nat), (∀ b ∈ bs, b < 256) →
    a2b 0 0 0 (b64encode bs) = some bs
  | [] => fun _ => rfl
  | [b1] => fun hlt => by
    have hb1 : b1 < 256 := hlt b1 (by simp)
    have h1 := b64chr_props (b1 / 4) (by omega)
    have h2 := b64chr_props (b1 % 4 * 16) (by omega)
    rw [b64encode, a2b_cons0 h1.1 (b64chr_val _ (by omega)),
      a2b_cons1 h2.1 (b64chr_val _ (by omega)), a2b_pad2]
    simp
    omega
  | [b1, b2] => fun hlt => by
    have hb1 : b1 < 256 := hlt b1 (by simp)
    have hb2 : b2 < 256 := hlt b2 (by simp)
    have h1 := b64chr_props (b1 / 4) (by omega)
    have h2 := b64chr_props (b1 % 4 * 16 + b2 / 16) (by omega)
    have h3 := b64chr_props (b2 % 16 * 4) (by omega)
    rw [b64encode, a2b_cons0 h1.1 (b64chr_val _ (by omega)),
      a2b_cons1 h2.1 (b64chr_val _ (by omega)),
      a2b_cons2 h3.1 (b64chr_val _ (by omega)), a2b_pad3]
    simp
    constructor
    · omega
    · omega
  | b1 :: b2 :: b3 :: rest => fun hlt => by
    have hb1 : b1 < 256 := hlt b1 (by simp)
    have hb2 : b2 < 256 := hlt b2 (by simp)
    have hb3 : b3 < 256 := hlt b3 (by simp)
    have ih := a2b_encode rest (fun b hb => hlt b (by simp [hb]))
    have h1 := b64chr_props (b1 / 4) (by omega)
    have h2 := b64chr_props (b1 % 4 * 16 + b2 / 16) (by omega)
    have h3 := b64chr_props (b2 % 16 * 4 + b3 / 64) (by omega)
    have h4 := b64chr_props (b3 % 64) (by omega)
    rw [b64encode, a2b_cons0 h1.1 (b64chr_val _ (by omega)),
      a2b_cons1 h2.1 (b64chr_val _ (by omega)),
      a2b_cons2 h3.1 (b64chr_val _ (by omega)),
      a2b_cons3 h4.1 (b64chr_val _ (by omega)), ih]
    simp
    refine ⟨by omega, by omega, by omega⟩

theorem b64encode_mem : ∀ (bs : List Nat) (c : Char), (∀ b ∈ bs, b < 256) →
    c ∈ b64encode bs → c = '=' ∨ ∃ k < 64, c = b64chr k
  | [] => fun c _ hc => absurd hc (by simp [b64encode])
  | [b1] => fun c hlt hc => by
    have hb1 : b1 < 256 := hlt b1 (by simp)
    rw [b64encode] at hc
    simp only [List.mem_cons, List.not_mem_nil, or_false] at hc
    rcases hc with hc | hc | hc | hc
    · exact Or.inr ⟨b1 / 4, by omega, hc⟩
    · exact Or.inr ⟨b1 % 4 * 16, by omega, hc⟩
    · exact Or.inl hc
    · exact Or.inl hc
  | [b1, b2] => fun c hlt hc => by
    have hb1 : b1 < 256 := hlt b1 (by simp)
    have hb2 : b2 < 256 := hlt b2 (by simp)
    rw [b64encode] at hc
    simp only [List.mem_cons, List.not_mem_nil, or_false] at hc
    rcases hc with hc | hc | hc | hc
    · exact Or.inr ⟨b1 / 4, by omega, hc⟩
    · exact Or.inr ⟨b1 % 4 * 16 + b2 / 16, by omega, hc⟩
    · exact Or.inr ⟨b2 % 16 * 4, by omega, hc⟩
    · exact Or.inl hc
  | b1 :: b2 :: b3 :: rest => fun c hlt hc => by
    have hb1 : b1 < 256 := hlt b1 (by simp)
    have hb2 : b2 < 256 := hlt b2 (by simp)
    have hb3 : b3 < 256 := hlt b3 (by simp)
    rw [b64encode] at hc
    simp only [List.mem_cons] at hc
    rcases hc with hc | hc | hc | hc | hc
    · exact Or.inr ⟨b1 / 4, by omega, hc⟩
    · exact Or.inr ⟨b1 % 4 * 16 + b2 / 16, by omega, hc⟩
    · exact Or.inr ⟨b2 % 16 * 4 + b3 / 64, by omega, hc⟩
    · exact Or.inr ⟨b3 % 64, by omega, hc⟩
    · exact b64encode_mem rest c (fun b hb => hlt b (by simp [hb])) hc

theorem b64encode_decodes {bs : List Nat} (hlt : ∀ b ∈ bs, b < 256) :
    b64decodeStr (b64encode bs) = some bs := by
  unfold b64decodeStr
  rw [if_pos, a2b_encode bs hlt]
  rw [List.all_eq_true]
  intro c hc
  rcases b64encode_mem bs c hlt hc with rfl | ⟨k, hk, rfl⟩
  · decide
  · simpa using (b64chr_props k hk).2.1

/-! ### zlib round trip -/

theorem adler_foldl_lt : ∀ (bs : List Nat) (st : Nat × Nat), st.1 < 65521 → st.2 < 65521 →
    (bs.foldl adlerStep st).1 < 65521 ∧ (bs.foldl adlerStep st).2 < 65521 := by
  intro bs
  induction bs with
  | nil => intro st h1 h2; exact ⟨h1, h2⟩
  | cons b bs ih =>
    intro st h1 h2
    exact ih (adlerStep st b) (Nat.mod_lt _ (by omega)) (Nat.mod_lt _ (by omega))

theorem adler32_lt (bs : List Nat) : adler32 bs < 4294967296 := by
  have h := adler_foldl_lt bs (1, 0) (by omega) (by omega)
  show (bs.foldl adlerStep (1, 0)).2 * 65536 + (bs.foldl adlerStep (1, 0)).1 < 4294967296
  omega

theorem storedBlocks_length : ∀ (bs : List Nat), (storedBlocks bs).length = 6 * bs.length + 5 := by
  intro bs
  induction bs with
  | nil => rfl
  | cons b bs ih => simp [storedBlocks, ih]; omega

theorem inflate_storedBlocks : ∀ (bs tail : List Nat) (fuel : Nat), bs.length < fuel →
    inflateStored fuel (storedBlocks bs ++ tail) = some (bs, tail) := by
  intro bs
  induction bs with
  | nil =>
    intro tail fuel hf
    match fuel, hf with
    | fuel + 1, _ =>
      show inflateStored (fuel + 1) (1 :: 0 :: 0 :: 255 :: 255 :: tail) = some ([], tail)
      rw [inflateStored]
      norm_num
  | cons b bs ih =>
    intro tail fuel hf
    match fuel, hf with
    | fuel + 1, hf =>
      show inflateStored (fuel + 1) (0 :: 1 :: 0 :: 254 :: 255 :: b :: (storedBlocks bs ++ tail))
        = some (b :: bs, tail)
      rw [inflateStored]
      have hih : inflateStored fuel ((b :: (storedBlocks bs ++ tail)).drop (1 + 256 * 0))
          = some (bs, tail) := by
        simpa using ih tail fuel (by simpa using hf)
      rw [if_pos (by norm_num), if_pos (by constructor <;> simp), if_neg (by norm_num), hih]
      simp

theorem zlib_roundtrip (bs : List Nat) : zlibDecompress (zlibCompress bs) = some bs := by
  unfold zlibCompress
  rw [zlibDecompress]
  rw [if_pos (by norm_num)]
  rw [inflate_storedBlocks bs (adlerBytes (adler32 bs))
    ((storedBlocks bs ++ adlerBytes (adler32 bs)).length + 1)
    (by simp [storedBlocks_length]; omega)]
  have hd := adler32_lt bs
  show (if 4 ≤ (adlerBytes (adler32 bs)).length ∧
      (adlerBytes (adler32 bs)).getD 0 0 * 16777216 + (adlerBytes (adler32 bs)).getD 1 0 * 65536 +
        (adlerBytes (adler32 bs)).getD 2 0 * 256 + (adlerBytes (adler32 bs)).getD 3 0
        = adler32 bs then some bs else none) = some bs
  rw [if_pos]
  constructor
  · simp [adlerBytes]
  · simp [adlerBytes]
    omega

example : zlibDecompress (zlibCompress [0, 77, 255, 3]) = some [0, 77, 255, 3] := by decide

/-! ### UTF-8 round trip -/

theorem char_valid (c : Char) :
    c.toNat < 55296 ∨ (57343 < c.toNat ∧ c.toNat < 1114112) := by
  have h := c.valid
  unfold UInt32.isValidChar Nat.isValidChar at h
  exact h

theorem utf8DecodeOne_encodeChar (c : Char) (rest : List Nat) :
    utf8DecodeOne (utf8EncodeChar c ++ rest) = some (c.toNat, rest) := by
  have hval := char_valid c
  unfold utf8EncodeChar
  by_cases h1 : c.toNat < 128
  · rw [if_pos h1]
    show utf8DecodeOne (c.toNat :: rest) = _
    rw [utf8DecodeOne, if_pos h1]
  · rw [if_neg h1]
    by_cases h2 : c.toNat < 2048
    · rw [if_pos h2]
      show utf8DecodeOne ((192 + c.toNat / 64) :: (128 + c.toNat % 64) :: rest) = _
      rw [utf8DecodeOne, if_neg (by omega), if_pos (by omega), utf8Cont2,
        if_pos (by unfold isCont; simp only [decide_eq_true_eq]; omega)]
      have harith : (192 + c.toNat / 64 - 192) * 64 + (128 + c.toNat % 64 - 128) = c.toNat := by
        omega
      rw [harith]
    · by_cases h3 : c.toNat < 65536
      · rw [if_neg h2, if_pos h3]
        show utf8DecodeOne ((224 + c.toNat / 4096) :: (128 + c.toNat / 64 % 64)
          :: (128 + c.toNat % 64) :: rest) = _
        have hg : (if 224 + c.toNat / 4096 = 224 then
              decide (160 ≤ 128 + c.toNat / 64 % 64 ∧ 128 + c.toNat / 64 % 64 ≤ 191)
            else if 224 + c.toNat / 4096 = 237 then
              decide (128 ≤ 128 + c.toNat / 64 % 64 ∧ 128 + c.toNat / 64 % 64 ≤ 159)
            else isCont (128 + c.toNat / 64 % 64)) = true := by
          split_ifs with hb1 hb1'
          · simp only [decide_eq_true_eq]
            omega
          · simp only [decide_eq_true_eq]
            omega
          · unfold isCont
            simp only [decide_eq_true_eq]
            omega
        rw [utf8DecodeOne, if_neg (by omega), if_neg (by omega), if_pos (by omega), utf8Cont3,
          if_pos ⟨hg, by unfold isCont; simp only [decide_eq_true_eq]; omega⟩]
        have harith : (224 + c.toNat / 4096 - 224) * 4096 + (128 + c.toNat / 64 % 64 - 128) * 64
            + (128 + c.toNat % 64 - 128) = c.toNat := by
          omega
        rw [harith]
      · rw [if_neg h2, if_neg h3]
        show utf8DecodeOne ((240 + c.toNat / 262144) :: (128 + c.toNat / 4096 % 64)
          :: (128 + c.toNat / 64 % 64) :: (128 + c.toNat % 64) :: rest) = _
        have hg : (if 240 + c.toNat / 262144 = 240 then
              decide (144 ≤ 128 + c.toNat / 4096 % 64 ∧ 128 + c.toNat / 4096 % 64 ≤ 191)
            else if 240 + c.toNat / 262144 = 244 then
              decide (128 ≤ 128 + c.toNat / 4096 % 64 ∧ 128 + c.toNat / 4096 % 64 ≤ 143)
            else isCont (128 + c.toNat / 4096 % 64)) = true := by
          split_ifs with hb1 hb1'
          · simp only [decide_eq_true_eq]
            omega
          · simp only [decide_eq_true_eq]
            omega
          · unfold isCont
            simp only [decide_eq_true_eq]
            omega
        rw [utf8DecodeOne, if_neg (by omega), if_neg (by omega), if_neg (by omega),
          if_pos (by omega), utf8Cont4,
          if_pos ⟨hg, by unfold isCont; simp only [decide_eq_true_eq]; omega,
            by unfold isCont; simp only [decide_eq_true_eq]; omega⟩]
        have harith : (240 + c.toNat / 262144 - 240) * 262144
            + (128 + c.toNat / 4096 % 64 - 128) * 4096
            + (128 + c.toNat / 64 % 64 - 128) * 64 + (128 + c.toNat % 64 - 128) = c.toNat := by
          omega
        rw [harith]

theorem utf8EncodeChar_ne_nil (c : Char) : utf8EncodeChar c ≠ [] := by
  unfold utf8EncodeChar
  split_ifs <;> simp

theorem utf8DecodeLoop_encode : ∀ (s : List Char) (extra : Nat) (tailb : List Nat),
    utf8DecodeLoop (s.length + extra) (utf8Encode s ++ tailb)
      = (utf8DecodeLoop extra tailb).map (fun t => s ++ t) := by
  intro s
  induction s with
  | nil =>
    intro extra tailb
    rw [utf8Encode]
    simp only [List.nil_append, List.length_nil, Nat.zero_add]
    rcases utf8DecodeLoop extra tailb with _ | t <;> simp
  | cons c cs ih =>
    intro extra tailb
    have hone := utf8DecodeOne_encodeChar c (utf8Encode cs ++ tailb)
    rcases hE : utf8EncodeChar c with _ | ⟨e, es⟩
    · exact absurd hE (utf8EncodeChar_ne_nil c)
    · rw [hE] at hone
      have hinput : utf8Encode (c :: cs) ++ tailb = e :: (es ++ (utf8Encode cs ++ tailb)) := by
        rw [utf8Encode, hE]
        simp
      rw [hinput, show (c :: cs).length + extra = (cs.length + extra) + 1 by simp; omega,
        utf8DecodeLoop]
      simp only [List.cons_append] at hone
      rw [hone]
      show (utf8DecodeLoop (cs.length + extra) (utf8Encode cs ++ tailb)).map
        (fun t => Char.ofNat c.toNat :: t) = _
      rw [ih extra tailb, Char.ofNat_toNat]
      rcases utf8DecodeLoop extra tailb with _ | t <;> simp

theorem utf8Encode_length_ge : ∀ (s : List Char), s.length ≤ (utf8Encode s).length := by
  intro s
  induction s with
  | nil => simp [utf8Encode]
  | cons c cs ih =>
    rw [utf8Encode]
    rcases hE : utf8EncodeChar c with _ | ⟨e, es⟩
    · exact absurd hE (utf8EncodeChar_ne_nil c)
    · simp
      omega

theorem utf8_roundtrip (s : List Char) : utf8Decode (utf8Encode s) = some s := by
  unfold utf8Decode
  have hge := utf8Encode_length_ge s
  have h := utf8DecodeLoop_encode s ((utf8Encode s).length - s.length) []
  rw [List.append_nil] at h
  have hnil : ∀ fuel : Nat, utf8DecodeLoop fuel [] = some [] := by
    intro fuel
    cases fuel <;> rfl
  rw [show (utf8Encode s).length = s.length + ((utf8Encode s).length - s.length) by omega, h,
    hnil]
  simp

theorem utf8EncodeChar_lt (c : Char) : ∀ b ∈ utf8EncodeChar c, b < 256 := by
  have hval := char_valid c
  unfold utf8EncodeChar
  split_ifs with h1 h2 h3 <;> intro b hb <;> simp only [List.mem_cons, List.not_mem_nil,
    or_false] at hb <;> rcases hb with rfl | rfl | rfl | rfl <;> omega

theorem utf8Encode_lt : ∀ (s : List Char), ∀ b ∈ utf8Encode s, b < 256
  | [] => by simp [utf8Encode]
  | c :: cs => by
    intro b hb
    rw [utf8Encode] at hb
    rcases List.mem_append.mp hb with hb' | hb'
    · exact utf8EncodeChar_lt c b hb'
    · exact utf8Encode_lt cs b hb'

/-! ### Characterization of the extractor regex -/

theorem toNat_ofNat_valid (n : Nat) (h : n < 55296) : (Char.ofNat n).toNat = n := by
  have hv : n.isValidChar := Or.inl (by omega)
  unfold Char.ofNat
  rw [dif_pos hv]
  simp [Char.ofNatAux, Char.toNat, UInt32.toNat, BitVec.toNat_ofNatLt]

theorem reLower_quote {c : Char} (h : reLower c = '"') : c = '"' := by
  unfold reLower at h
  split_ifs at h with h1 h2 h3 h4
  · have h34 := congrArg Char.toNat h
    rw [toNat_ofNat_valid _ (by omega)] at h34
    have : ('"' : Char).toNat = 34 := rfl
    omega
  · exact absurd h (by decide)
  · exact absurd h (by decide)
  · exact absurd h (by decide)
  · exact h

theorem ciPrefix_nil : ∀ (t : List Char), ciPrefix t [] = true := by
  intro t
  cases t <;> rfl

theorem ciPrefix_append {pat : List Char} : ∀ {t : List Char} (u : List Char),
    pat.length ≤ t.length → ciPrefix (t ++ u) pat = ciPrefix t pat := by
  induction pat with
  | nil => intro t u _; rw [ciPrefix_nil, ciPrefix_nil]
  | cons p ps ih =>
    intro t u h
    match t with
    | [] => simp at h
    | c :: cs =>
      show (decide (reLower c = p) && ciPrefix (cs ++ u) ps)
        = (decide (reLower c = p) && ciPrefix cs ps)
      rw [ih u (by simpa using h)]

theorem ciPrefix_getD : ∀ {pat t : List Char}, ciPrefix t pat = true →
    ∀ k < pat.length, reLower (t.getD k ' ') = pat.getD k ' ' := by
  intro pat
  induction pat with
  | nil => intro t _ k hk; simp at hk
  | cons p ps ih =>
    intro t h k hk
    match t with
    | [] => exact absurd h (by simp [ciPrefix])
    | c :: cs =>
      rw [ciPrefix, Bool.and_eq_true, decide_eq_true_eq] at h
      match k with
      | 0 => simpa using h.1
      | k + 1 => simpa using ih h.2 k (by simpa using hk)

theorem getD_drop (s : List Char) (n k : Nat) :
    (s.drop n).getD k ' ' = s.getD (n + k) ' ' := by
  rcases Nat.lt_or_ge (n + k) s.length with h | h
  · have h2 : k < (s.drop n).length := by
      simp [List.length_drop]
      omega
    rw [List.getD_eq_getElem _ _ h2, List.getD_eq_getElem _ _ h]
    exact List.getElem_drop ..
  · rw [List.getD_eq_default _ _ (by simp [List.length_drop]; omega),
      List.getD_eq_default _ _ (by omega)]

theorem capQuote_append : ∀ (v rest : List Char), '"' ∉ v →
    capQuote (v ++ '"' :: rest) = some v
  | [], rest => fun _ => by
    rw [List.nil_append, capQuote, if_pos rfl]
  | c :: cs, rest => fun hv => by
    have hc : c ≠ '"' := fun h => hv (by simp [h])
    rw [List.cons_append, capQuote, if_neg hc,
      capQuote_append cs rest (fun h => hv (by simp [h]))]
    rfl

theorem capQuote_none : ∀ (t : List Char), '"' ∉ t → capQuote t = none
  | [] => fun _ => rfl
  | c :: cs => fun h => by
    rw [capQuote, if_neg (fun hc => h (by simp [hc])),
      capQuote_none cs (fun hc => h (by simp [hc]))]
    rfl

theorem capQuote_some : ∀ {t v : List Char}, capQuote t = some v → '"' ∉ v
  | [], v => fun h => absurd h (by simp [capQuote])
  | c :: cs, v => fun h => by
    rw [capQuote] at h
    split_ifs at h with hc
    · rw [← Option.some.inj h]
      simp
    · rcases Option.map_eq_some'.mp h with ⟨v2, hv2, rfl⟩
      have hnv2 := capQuote_some hv2
      intro hmem
      rcases List.mem_cons.mp hmem with h1 | h1
      · exact hc h1.symm
      · exact hnv2 h1

theorem windowLen_le : ∀ (t : List Char), windowLen t ≤ t.length
  | [] => le_refl 0
  | c :: cs => by
    rw [windowLen]
    split_ifs with hc
    · simp
    · simpa using windowLen_le cs

theorem windowLen_append : ∀ (t u : List Char), '>' ∉ t →
    windowLen (t ++ u) = t.length + windowLen u
  | [], u => fun _ => by simp
  | c :: cs, u => fun h => by
    have hc : c ≠ '>' := fun hc => h (by simp [hc])
    rw [List.cons_append, windowLen, if_neg hc,
      windowLen_append cs u (fun hm => h (by simp [hm]))]
    simp
    omega

theorem windowLen_getD : ∀ (t : List Char) (k : Nat), k < windowLen t → t.getD k ' ' ≠ '>'
  | [], k => by simp [windowLen]
  | c :: cs, k => by
    rw [windowLen]
    split_ifs with hc
    · omega
    · match k with
      | 0 => intro _; simpa using hc
      | k + 1 =>
        intro hk
        simpa using windowLen_getD cs k (by omega)

theorem tryG_here {s : List Char} {p : Nat} {v : List Char} : ∀ {g : Nat},
    ciMatchAt s (p + g) valuePat = true → capQuote (s.drop (p + g + 7)) = some v →
    tryG s p g = some v
  | 0, hok, hcap => by
    rw [tryG, if_pos (by simpa using hok)]
    simpa using hcap
  | g + 1, hok, hcap => by
    rw [tryG, if_pos hok, hcap]

theorem tryG_skip {s : List Char} {p : Nat} (g : Nat) : ∀ (d : Nat),
    (∀ e, g < e → e ≤ g + d →
      ¬(ciMatchAt s (p + e) valuePat = true ∧ (capQuote (s.drop (p + e + 7))).isSome = true)) →
    tryG s p (g + d) = tryG s p g
  | 0, _ => rfl
  | d + 1, hfail => by
    rw [show g + (d + 1) = (g + d) + 1 by omega, tryG]
    have hf := hfail (g + d + 1) (by omega) (by omega)
    by_cases hc : ciMatchAt s (p + (g + d + 1)) valuePat = true
    · rcases hcap : capQuote (s.drop (p + (g + d + 1) + 7)) with _ | cap
      · rw [if_pos hc]
        show tryG s p (g + d) = tryG s p g
        exact tryG_skip g d (fun e he1 he2 => hfail e he1 (by omega))
      · exact absurd ⟨hc, by rw [hcap]; rfl⟩ hf
    · rw [if_neg hc]
      exact tryG_skip g d (fun e he1 he2 => hfail e he1 (by omega))

theorem tryG_some : ∀ (g : Nat) {s : List Char} {p : Nat} {v : List Char},
    tryG s p g = some v →
    ∃ e ≤ g, ciMatchAt s (p + e) valuePat = true ∧ capQuote (s.drop (p + e + 7)) = some v
  | 0, s, p, v => fun h => by
    rw [tryG] at h
    split_ifs at h with hc
    exact ⟨0, le_refl 0, by simpa using hc, by simpa using h⟩
  | g + 1, s, p, v => fun h => by
    rw [tryG] at h
    split_ifs at h with hc
    · rcases hcap : capQuote (s.drop (p + (g + 1) + 7)) with _ | cap
      · rw [hcap] at h
        have h2 : tryG s p g = some v := h
        rcases tryG_some g h2 with ⟨e, he, hm, hcp⟩
        exact ⟨e, by omega, hm, hcp⟩
      · rw [hcap] at h
        have h2 : some cap = some v := h
        exact ⟨g + 1, le_refl _, hc, by rw [hcap, Option.some.inj h2]⟩
    · rcases tryG_some g h with ⟨e, he, hm, hcp⟩
      exact ⟨e, by omega, hm, hcp⟩

theorem vsSearchAux_skip : ∀ (n : Nat) (s : List Char) (i fuel : Nat),
    (∀ j, i ≤ j → j < i + n → ciMatchAt s j namePat = false) →
    vsSearchAux s i (fuel + n) = vsSearchAux s (i + n) fuel := by
  intro n
  induction n with
  | zero => intro s i fuel _; rfl
  | succ n ih =>
    intro s i fuel hno
    rw [show fuel + (n + 1) = (fuel + n) + 1 by omega, vsSearchAux,
      if_neg (by rw [hno i (by omega) (by omega)]; simp),
      ih s (i + 1) fuel (fun j hj1 hj2 => hno j (by omega) (by omega)),
      show i + 1 + n = i + (n + 1) by omega]

theorem vsSearchAux_hit {s : List Char} {i fuel : Nat} {v : List Char}
    (hname : ciMatchAt s i namePat = true) (htail : vsTailMatch s (i + 18) = some v) :
    vsSearchAux s i (fuel + 1) = some v := by
  rw [vsSearchAux, if_pos hname, htail]

theorem vsSearchAux_some : ∀ (fuel : Nat) (s : List Char) (i : Nat) (v : List Char),
    vsSearchAux s i fuel = some v →
    ∃ j, i ≤ j ∧ ciMatchAt s j namePat = true ∧ vsTailMatch s (j + 18) = some v := by
  intro fuel
  induction fuel with
  | zero =>
    intro s i v h
    rw [vsSearchAux] at h
    exact absurd h (by simp)
  | succ fuel ih =>
    intro s i v h
    rw [vsSearchAux] at h
    by_cases hname : ciMatchAt s i namePat = true
    · rw [if_pos hname] at h
      rcases ht : vsTailMatch s (i + 18) with _ | cap
      · rw [ht] at h
        have h2 : vsSearchAux s (i + 1) fuel = some v := h
        rcases ih s (i + 1) v h2 with ⟨j, hj, hc, htl⟩
        exact ⟨j, by omega, hc, htl⟩
      · rw [ht] at h
        have h2 : some cap = some v := h
        exact ⟨i, le_refl i, hname, by rw [ht, Option.some.inj h2]⟩
    · rw [if_neg hname] at h
      rcases ih s (i + 1) v h with ⟨j, hj, hc, htl⟩
      exact ⟨j, by omega, hc, htl⟩

theorem vsSearch_embed
    (pre ns mid vo v post : List Char) (s : List Char)
    (hs : s = pre ++ ns ++ mid ++ vo ++ v ++ '"' :: post)
    (h1 : ∀ j < pre.length, ciMatchAt s j namePat = false)
    (h2 : ciPrefix ns namePat = true) (h2l : ns.length = 18)
    (h3 : ciPrefix vo valuePat = true) (h3l : vo.length = 7)
    (h4 : '>' ∉ mid)
    (h5 : '"' ∉ v)
    (h6 : ∀ q < s.length, pre.length + 18 + mid.length < q →
      (∀ k < q, pre.length + 18 ≤ k → s.getD k ' ' ≠ '>') →
      ¬(ciMatchAt s q valuePat = true ∧ (capQuote (s.drop (q + 7))).isSome = true)) :
    vsSearch s = some v := by
  have hnp : namePat.length = 18 := rfl
  have hvp : valuePat.length = 7 := rfl
  have assoc2 : s = (pre ++ ns) ++ (mid ++ (vo ++ (v ++ '"' :: post))) := by
    rw [hs]
    simp [List.append_assoc]
  have assoc3 : s = ((pre ++ ns) ++ mid) ++ (vo ++ (v ++ '"' :: post)) := by
    rw [hs]
    simp [List.append_assoc]
  have assoc4 : s = (((pre ++ ns) ++ mid) ++ vo) ++ (v ++ '"' :: post) := by
    rw [hs]
    simp [List.append_assoc]
  have assoc1 : s = pre ++ (ns ++ (mid ++ (vo ++ (v ++ '"' :: post)))) := by
    rw [hs]
    simp [List.append_assoc]
  have e1 : s.drop pre.length = ns ++ (mid ++ (vo ++ (v ++ '"' :: post))) := by
    rw [assoc1]
    exact List.drop_left ..
  have e2 : s.drop (pre.length + 18) = mid ++ (vo ++ (v ++ '"' :: post)) := by
    rw [assoc2, show pre.length + 18 = (pre ++ ns).length by simp [h2l]]
    exact List.drop_left ..
  have e3 : s.drop (pre.length + 18 + mid.length) = vo ++ (v ++ '"' :: post) := by
    rw [assoc3,
      show pre.length + 18 + mid.length = ((pre ++ ns) ++ mid).length by simp [h2l]; omega]
    exact List.drop_left ..
  have e4 : s.drop (pre.length + 18 + mid.length + 7) = v ++ '"' :: post := by
    rw [assoc4,
      show pre.length + 18 + mid.length + 7 = (((pre ++ ns) ++ mid) ++ vo).length by
        simp [h2l, h3l]; omega]
    exact List.drop_left ..
  have hname : ciMatchAt s pre.length namePat = true := by
    unfold ciMatchAt
    rw [e1, ciPrefix_append _ (by omega)]
    exact h2
  have hok : ciMatchAt s (pre.length + 18 + mid.length) valuePat = true := by
    unfold ciMatchAt
    rw [e3, ciPrefix_append _ (by omega)]
    exact h3
  have hcap : capQuote (s.drop (pre.length + 18 + mid.length + 7)) = some v := by
    rw [e4]
    exact capQuote_append v post h5
  have htail : vsTailMatch s (pre.length + 18) = some v := by
    unfold vsTailMatch
    rw [e2, windowLen_append mid _ h4]
    have hfail : ∀ e, mid.length < e → e ≤ mid.length + windowLen (vo ++ (v ++ '"' :: post)) →
        ¬(ciMatchAt s (pre.length + 18 + e) valuePat = true ∧
          (capQuote (s.drop (pre.length + 18 + e + 7))).isSome = true) := by
      intro e he1 he2 hbad
      rcases Nat.lt_or_ge (pre.length + 18 + e) s.length with hq | hq
      · refine h6 (pre.length + 18 + e) hq (by omega) ?_ hbad
        intro k hk hpk
        have hwin : k - (pre.length + 18) < windowLen (s.drop (pre.length + 18)) := by
          rw [e2, windowLen_append mid _ h4]
          omega
        have hget := windowLen_getD (s.drop (pre.length + 18)) (k - (pre.length + 18)) hwin
        rw [getD_drop, show pre.length + 18 + (k - (pre.length + 18)) = k by omega] at hget
        exact hget
      · have hdrop : s.drop (pre.length + 18 + e) = [] := List.drop_eq_nil_of_le hq
        have hcm := hbad.1
        unfold ciMatchAt at hcm
        rw [hdrop] at hcm
        exact absurd hcm (by decide)
    have hskip := tryG_skip mid.length (windowLen (vo ++ (v ++ '"' :: post)))
      (fun e he1 he2 hb => hfail e he1 he2 hb)
    rw [hskip, tryG_here hok hcap]
  have hslen : pre.length ≤ s.length := by
    rw [hs]
    simp
  unfold vsSearch
  rw [show s.length + 1 = ((s.length - pre.length) + 1) + pre.length by omega,
    vsSearchAux_skip pre.length s 0 ((s.length - pre.length) + 1)
      (fun j hj1 hj2 => h1 j (by omega)),
    show 0 + pre.length = pre.length by omega]
  exact vsSearchAux_hit hname htail

/-- C7 (counterexample): the greedy `[^>]*` prefers the LAST `value="` in the
tag, so an attribute after the value attribute whose name ends in `value`
steals the capture: the `__VIEWSTATE` value attribute holds `QUJD`, but
extraction captures `ZZZZ` from `data-value`. -/
theorem c7_counterexample :
    vsSearch ("<input name=\"__VIEWSTATE\" value=\"QUJD\" data-value=\"ZZZZ\">".toList)
      = some ("ZZZZ".toList) ∧ "ZZZZ".toList ≠ "QUJD".toList := by
  constructor
  · decide
  · decide

/-- C7 (amended: tolerant of attributes between the name and the value
attribute, PROVIDED no later case-insensitive occurrence of `value="`
followed by a closing quote exists in the same tag): for a text of the form
`pre ++ name-attr ++ mid ++ value-attr-open ++ v ++ quote ++ post` — name and
`value="` matched case-insensitively, arbitrary other attributes `mid`
(no `>`) between them — extraction captures exactly `v`. -/
theorem c7_between_attributes_tolerated
    (pre ns mid vo v post s : List Char)
    (hs : s = pre ++ ns ++ mid ++ vo ++ v ++ '"' :: post)
    (h1 : ∀ j < pre.length, ciMatchAt s j namePat = false)
    (h2 : ciPrefix ns namePat = true) (h2l : ns.length = 18)
    (h3 : ciPrefix vo valuePat = true) (h3l : vo.length = 7)
    (h4 : '>' ∉ mid) (h5 : '"' ∉ v)
    (h6 : ∀ q < s.length, pre.length + 18 + mid.length < q →
      (∀ k < q, pre.length + 18 ≤ k → s.getD k ' ' ≠ '>') →
      ¬(ciMatchAt s q valuePat = true ∧ (capQuote (s.drop (q + 7))).isSome = true)) :
    vsSearch s = some v :=
  vsSearch_embed pre ns mid vo v post s hs h1 h2 h2l h3 h3l h4 h5 h6

/-- C7 (witness): mixed-case attributes with another attribute between the
name and the value; the capture is exactly the value. -/
theorem c7_between_attributes_witness :
    vsSearch ("<p NAME=\"__viewstate\" id=\"pin box\" Value=\"Zm9v\" disabled=\"yes\">".toList)
      = some ("Zm9v".toList) :=
  c7_between_attributes_tolerated ("<p ".toList) ("NAME=\"__viewstate\"".toList)
    (" id=\"pin box\" ".toList) ("Value=\"".toList) ("Zm9v".toList)
    (" disabled=\"yes\">".toList)
    ("<p NAME=\"__viewstate\" id=\"pin box\" Value=\"Zm9v\" disabled=\"yes\">".toList)
    (by decide) (by decide) (by decide) (by decide) (by decide) (by decide)
    (by decide) (by decide) (by decide)

/-- C10 (counterexample): with the value attribute single-quoted the claim
predicts `NotFound`, but a later double-quoted attribute whose name ends in
`value` still matches the regex, so decoding succeeds with that other
attribute's payload. -/
theorem c10_counterexample :
    decode_viewstate ("<input name=\"__VIEWSTATE\" value='X' data-value=\"WUVT\">".toList)
      = VsResult.text ("YES".toList) ∧
    VsResult.text ("YES".toList) ≠ VsResult.notFound := by
  constructor
  · decide
  · decide

/-- C10 (amended: the extractor only ever matches double-quoted forms):
whenever extraction succeeds, there are positions where the literal
`name="__VIEWSTATE"` and `value="` match case-insensitively — with actual
double-quote characters at the corresponding offsets — and the captured
value is exactly the text up to the next double quote. -/
theorem c10_success_implies_double_quoted (s v : List Char) (h : vsSearch s = some v) :
    ∃ i q, ciMatchAt s i namePat = true ∧ i + 18 ≤ q ∧
      ciMatchAt s q valuePat = true ∧ capQuote (s.drop (q + 7)) = some v ∧
      '"' ∉ v ∧ s.getD (i + 5) ' ' = '"' ∧ s.getD (i + 17) ' ' = '"' ∧
      s.getD (q + 6) ' ' = '"' := by
  unfold vsSearch at h
  rcases vsSearchAux_some _ s 0 v h with ⟨i, -, hname, htail⟩
  unfold vsTailMatch at htail
  rcases tryG_some _ htail with ⟨e, he, hok, hcap⟩
  have hq5 : s.getD (i + 5) ' ' = '"' := by
    have h5 := ciPrefix_getD hname 5 (by decide)
    rw [getD_drop] at h5
    exact reLower_quote (by rw [h5]; rfl)
  have hq17 : s.getD (i + 17) ' ' = '"' := by
    have h17 := ciPrefix_getD hname 17 (by decide)
    rw [getD_drop] at h17
    exact reLower_quote (by rw [h17]; rfl)
  have hq6 : s.getD (i + 18 + e + 6) ' ' = '"' := by
    have h6 := ciPrefix_getD hok 6 (by decide)
    rw [getD_drop] at h6
    exact reLower_quote (by rw [h6]; rfl)
  exact ⟨i, i + 18 + e, hname, by omega, hok, hcap, capQuote_some hcap, hq5, hq17, hq6⟩

/-- C10 (witness): the amended statement at a concrete successful input. -/
theorem c10_double_quoted_witness :
    ∃ i q, ciMatchAt ("<p name=\"__ViewState\" value=\"UElO\"></p>".toList) i namePat = true ∧
      i + 18 ≤ q ∧
      ciMatchAt ("<p name=\"__ViewState\" value=\"UElO\"></p>".toList) q valuePat = true ∧
      capQuote (("<p name=\"__ViewState\" value=\"UElO\"></p>".toList).drop (q + 7))
        = some ("UElO".toList) ∧
      '"' ∉ "UElO".toList ∧
      ("<p name=\"__ViewState\" value=\"UElO\"></p>".toList).getD (i + 5) ' ' = '"' ∧
      ("<p name=\"__ViewState\" value=\"UElO\"></p>".toList).getD (i + 17) ' ' = '"' ∧
      ("<p name=\"__ViewState\" value=\"UElO\"></p>".toList).getD (q + 6) ' ' = '"' :=
  c10_success_implies_double_quoted ("<p name=\"__ViewState\" value=\"UElO\"></p>".toList)
    ("UElO".toList) (by decide)

theorem list_getD_mem : ∀ (l : List Char) (i : Nat) (d : Char), i < l.length → l.getD i d ∈ l
  | [], _, _, h => absurd h (by simp)
  | a :: l, 0, _, _ => List.mem_cons_self a l
  | a :: l, i + 1, d, h => List.mem_cons_of_mem a (list_getD_mem l i d (by simpa using h))

theorem storedBlocks_lt : ∀ (bs : List Nat), (∀ b ∈ bs, b < 256) →
    ∀ x ∈ storedBlocks bs, x < 256
  | [], _ => by
    intro x hx
    simp only [storedBlocks, List.mem_cons, List.not_mem_nil, or_false] at hx
    rcases hx with rfl | rfl | rfl | rfl | rfl <;> omega
  | b :: rest, h => by
    intro x hx
    simp only [storedBlocks, List.mem_cons] at hx
    rcases hx with rfl | rfl | rfl | rfl | rfl | rfl | hx
    · omega
    · omega
    · omega
    · omega
    · omega
    · exact h x (List.mem_cons_self x rest)
    · exact storedBlocks_lt rest (fun y hy => h y (List.mem_cons_of_mem b hy)) x hx

theorem zlibCompress_lt (bs : List Nat) (h : ∀ b ∈ bs, b < 256) :
    ∀ x ∈ zlibCompress bs, x < 256 := by
  intro x hx
  simp only [zlibCompress, List.mem_cons, List.mem_append] at hx
  rcases hx with rfl | rfl | hx | hx
  · omega
  · omega
  · exact storedBlocks_lt bs h x hx
  · simp only [adlerBytes, List.mem_cons, List.not_mem_nil, or_false] at hx
    rcases hx with rfl | rfl | rfl | rfl <;> exact Nat.mod_lt _ (by omega)

theorem tail4_getD_ne (k : Nat) (hk : k ≠ 0) :
    ("\" />".toList).getD k ' ' ≠ '"' := by
  intro hq
  rcases k with _ | (_ | (_ | (_ | k)))
  · exact hk rfl
  · exact absurd hq (by decide)
  · exact absurd hq (by decide)
  · exact absurd hq (by decide)
  · have h4 : ("\" />".toList).getD (k + 4) ' ' = ' ' :=
      List.getD_eq_default _ _ (by
        rw [show ("\" />".toList).length = 4 from rfl]; omega)
    have hq' : ("\" />".toList).getD (k + 4) ' ' = '"' := hq
    rw [h4] at hq'
    exact absurd hq' (by decide)

/-- C5: the spec's round-trip property (§8): compressing arbitrary text with
the zlib-compatible scheme, base64-encoding it and embedding it in a minimal
attribute string, the full extraction pipeline recovers the original text
exactly. -/
theorem c5_roundtrip (t : List Char) :
    decode_viewstate (embedViewstate (b64encode (zlibCompress (utf8Encode t))))
      = VsResult.text t := by
  have hcomp : ∀ b ∈ zlibCompress (utf8Encode t), b < 256 :=
    zlibCompress_lt (utf8Encode t) (utf8Encode_lt t)
  set v := b64encode (zlibCompress (utf8Encode t)) with hv
  have hvchar : ∀ c ∈ v, c ≠ '"' ∧ c ≠ '>' := by
    intro c hc
    rcases b64encode_mem _ c hcomp hc with rfl | ⟨k, hk, rfl⟩
    · exact ⟨by decide, by decide⟩
    · exact ⟨(b64chr_props k hk).2.2.1, (b64chr_props k hk).2.2.2⟩
  have hquote : '"' ∉ v := fun h => (hvchar '"' h).1 rfl
  have hnp : namePat.length = 18 := rfl
  have hlenA : ("<input name=\"__VIEWSTATE\" value=\"".toList).length = 33 := by decide
  have hsA : embedViewstate v
      = "<input name=\"__VIEWSTATE\" value=\"".toList ++ (v ++ "\" />".toList) := by
    unfold embedViewstate
    rw [List.append_assoc]
  have hsB : embedViewstate v
      = ("<input name=\"__VIEWSTATE\" value=\"".toList ++ v) ++ "\" />".toList := rfl
  have hlen2 : (("<input name=\"__VIEWSTATE\" value=\"".toList) ++ v).length
      = 33 + v.length := by
    rw [List.length_append, hlenA]
  have hvs : vsSearch (embedViewstate v) = some v := by
    refine vsSearch_embed ("<input ".toList) ("name=\"__VIEWSTATE\"".toList) [' ']
      ("value=\"".toList) v ([' ', '/', '>']) (embedViewstate v) ?_ ?_ (by decide) (by decide)
      (by decide) (by decide) (by decide) hquote ?_
    · unfold embedViewstate
      rw [show ("<input name=\"__VIEWSTATE\" value=\"".toList)
            = "<input ".toList ++ "name=\"__VIEWSTATE\"".toList ++ [' '] ++ "value=\"".toList
          from by decide,
        show ("\" />".toList) = '"' :: [' ', '/', '>'] from by decide]
    · intro j hj
      have hj7 : j < 7 := hj
      unfold ciMatchAt
      have hdj : ((("<input name=\"__VIEWSTATE\" value=\"".toList) ++ (v ++ ("\" />".toList))).drop j)
          = ("<input name=\"__VIEWSTATE\" value=\"".toList).drop j ++ (v ++ ("\" />".toList)) :=
        List.drop_append_of_le_length (by rw [hlenA]; omega)
      have hci := @ciPrefix_append namePat
        (("<input name=\"__VIEWSTATE\" value=\"".toList).drop j) (v ++ ("\" />".toList))
        (by rw [List.length_drop, hlenA, hnp]; omega)
      rw [hsA, hdj, hci]
      interval_cases j <;> decide
    · intro q hqlen hq26 hwin hcontra
      rcases hcontra with ⟨hmatch, hcap⟩
      have hq27 : 26 < q := hq26
      have hgd := ciPrefix_getD hmatch 6 (by decide)
      rw [getD_drop] at hgd
      have hqq : (embedViewstate v).getD (q + 6) ' ' = '"' :=
        reLower_quote (by rw [hgd]; rfl)
      rcases Nat.lt_trichotomy (q + 6) (33 + v.length) with hlt | heq | hgt
      · have he1 : (embedViewstate v).getD (q + 6) ' '
            = (v ++ ("\" />".toList)).getD (q + 6 - 33) ' ' := by
          rw [hsA]
          have hr := List.getD_append_right ("<input name=\"__VIEWSTATE\" value=\"".toList)
            (v ++ ("\" />".toList)) ' ' (q + 6) (by rw [hlenA]; omega)
          rw [hr, hlenA]
        have hmem : (v ++ ("\" />".toList)).getD (q + 6 - 33) ' ' ∈ v := by
          rw [List.getD_append v ("\" />".toList) ' ' (q + 6 - 33) (by omega)]
          exact list_getD_mem v _ ' ' (by omega)
        rw [he1] at hqq
        rw [hqq] at hmem
        exact hquote hmem
      · have hnil : (("<input name=\"__VIEWSTATE\" value=\"".toList) ++ v).drop (q + 7) = [] :=
          List.drop_eq_nil_of_le (by rw [hlen2]; omega)
        have hd1 : q + 7 - (("<input name=\"__VIEWSTATE\" value=\"".toList) ++ v).length = 1 := by
          rw [hlen2]; omega
        have hdropS : (embedViewstate v).drop (q + 7) = [' ', '/', '>'] := by
          rw [hsB, List.drop_append_eq_append_drop, hnil, hd1, List.nil_append]
          decide
        rw [hdropS, capQuote_none [' ', '/', '>'] (by decide)] at hcap
        exact absurd hcap (by decide)
      · have he2 : (embedViewstate v).getD (q + 6) ' '
            = ("\" />".toList).getD (q + 6 - (33 + v.length)) ' ' := by
          rw [hsB]
          have hr := List.getD_append_right (("<input name=\"__VIEWSTATE\" value=\"".toList) ++ v)
            ("\" />".toList) ' ' (q + 6) (by rw [hlen2]; omega)
          rw [hr, hlen2]
        rw [he2] at hqq
        exact tail4_getD_ne _ (by omega) hqq
  unfold decode_viewstate
  rw [hvs]
  show decodePayload v = VsResult.text t
  unfold decodePayload
  rw [hv, b64encode_decodes hcomp]
  show (match zlibDecompress (zlibCompress (utf8Encode t)) with
    | some dec => decompressedTextDecode dec
    | none => rawTextDecode (zlibCompress (utf8Encode t))) = VsResult.text t
  rw [zlib_roundtrip (utf8Encode t)]
  show decompressedTextDecode (utf8Encode t) = VsResult.text t
  unfold decompressedTextDecode
  rw [utf8_roundtrip t]
